import Mathlib

/-!
# minutils: conversion helpers (`convert.go`) and text filters (`text.go`)

A shallow embedding of the Go package `minutils`.

## Data model

* A Go `string` is represented by `GoString = List Char`: the sequence of code points the Go
  runtime, `regexp` and `strconv` see when they walk the string.  Every function embedded here
  treats a byte that is not part of a valid UTF-8 sequence exactly like the code point U+FFFD
  (it is never a digit, a sign, a comma, a letter or a number), so such a byte is represented
  by U+FFFD.
* `int64`, `int32` and `int` values are represented by `Int`; a conversion to a narrower type
  is written with an explicit wrap (`wrapInt`).  `int` is 64 bits wide (`IntSize = 64`).
* A Go slice is a `List`; the `nil` slice and the empty slice are both `[]`.
* `ToString`, `ToBytes` and `ToSlice` take a value of type `any`.  The first two never look
  inside a text, so for them a `string` and a `[]byte` are the sequence of their bytes
  (`ByteSeq`); `ToSlice` sees its argument through `reflect` (`ReflectValue`).

## Library functions

The package delegates to `strings`, `strconv`, `regexp`, `unicode`, `github.com/spf13/cast`
(release 1.10: a string is cut by `trimDecimal` before it is parsed, and `ToStringSlice`
accepts integer slices) and `golang.org/x/text/cases`.  Their code is embedded next to the function of `minutils` that
calls it.  `json.Marshal` is a parameter of `ToString` and `ToBytes`.  Unicode character
data outside ASCII depends on the Unicode version the toolchain ships; it is the parameter
`UnicodeTables`.  Fixed here are the ASCII rows, the Latin-1 cases `unicode.IsSpace` spells
out, and the rows U+4E00 to U+9FA5 of the script `Han`.
-/

namespace Minutils

/-- A Go string, as the sequence of its code points. -/
abbrev GoString := List Char

/-! ## `strings.Split` and `strings.Join` -/

/-- The Go call `strings.Split(s, sep)` for a one-byte separator `sep`: the pieces of `s`
between consecutive occurrences of `sep`.  The empty string gives one empty piece. -/
def Split (sep : Char) : GoString → List GoString
  | [] => [[]]
  | c :: cs =>
    if c = sep then [] :: Split sep cs
    else
      match Split sep cs with
      | [] => [[c]]
      | t :: ts => (c :: t) :: ts

/-- The Go call `strings.Join(elems, sep)`. -/
def Join (sep : GoString) : List GoString → GoString
  | [] => []
  | [a] => a
  | a :: b :: rest => a ++ sep ++ Join sep (b :: rest)

/-! ## `strconv.ParseUint` and `strconv.ParseInt` -/

/-- The two kinds of `*strconv.NumError` the parsers report for a valid base and bit size,
and the error for an invalid base. -/
inductive NumError where
  | ErrSyntax
  | ErrRange
  | ErrBase
  | ErrBitSize
  deriving DecidableEq, Repr

/-- The constant `strconv.IntSize` on a 64-bit platform. -/
def IntSize : Nat := 64

/-- The constant `maxUint64`. -/
def maxUint64 : Nat := 2 ^ 64 - 1

/-- The byte helper `lower(c)` of `strconv`: `c | ('x' - 'X')`. -/
def lower (c : Char) : Nat := c.toNat ||| 0x20

/-- The digit tracking state of `underscoreOK`: the values `^`, `0`, `_` and `!` of `saw`. -/
inductive Saw where
  | start
  | digit
  | underscore
  | other
  deriving DecidableEq, Repr

/-- The main loop of `underscoreOK` ("Number proper"); `none` is the early `return false`. -/
def underscoreLoop (hex : Bool) : GoString → Saw → Option Saw
  | [], saw => some saw
  | c :: cs, saw =>
    if ('0' ≤ c ∧ c ≤ '9') ∨ (hex = true ∧ 97 ≤ lower c ∧ lower c ≤ 102) then
      underscoreLoop hex cs Saw.digit
    else if c = '_' then
      if saw ≠ Saw.digit then none else underscoreLoop hex cs Saw.underscore
    else if saw = Saw.underscore then none
    else underscoreLoop hex cs Saw.other

/-- The function `underscoreOK(s)` of `strconv`: underscores appear only between digits or
between a base prefix and a digit. -/
def underscoreOK (s : GoString) : Bool :=
  let s1 := match s with
    | c :: cs => if c = '-' ∨ c = '+' then cs else s
    | [] => s
  let r := match s1 with
    | c0 :: c1 :: rest =>
      if c0 = '0' ∧ (lower c1 = 98 ∨ lower c1 = 111 ∨ lower c1 = 120) then
        underscoreLoop (decide (lower c1 = 120)) rest Saw.digit
      else underscoreLoop false s1 Saw.start
    | _ => underscoreLoop false s1 Saw.start
  match r with
  | none => false
  | some saw => decide (saw ≠ Saw.underscore)

/-- The digit loop of `ParseUint`: `n` is the value read so far and `us` records whether an
underscore was skipped.  The result is the pair `(value, error)` the function would return
from inside the loop, or the final `n` and `us` when the loop runs to the end. -/
def parseLoop (base : Nat) (base0 : Bool) (cutoff maxVal : Nat) :
    GoString → Nat → Bool → (Nat × NumError) ⊕ (Nat × Bool)
  | [], n, us => Sum.inr (n, us)
  | c :: cs, n, us =>
    if c = '_' ∧ base0 = true then parseLoop base base0 cutoff maxVal cs n true
    else
      let d : Option Nat :=
        if '0' ≤ c ∧ c ≤ '9' then some (c.toNat - 48)
        else if 97 ≤ lower c ∧ lower c ≤ 122 then some (lower c - 97 + 10)
        else none
      match d with
      | none => Sum.inl (0, NumError.ErrSyntax)
      | some d =>
        if d ≥ base then Sum.inl (0, NumError.ErrSyntax)
        else if n ≥ cutoff then Sum.inl (maxVal, NumError.ErrRange)
        else
          let nb := (n * base) % 2 ^ 64
          let n1 := (nb + d) % 2 ^ 64
          if n1 < nb ∨ n1 > maxVal then Sum.inl (maxVal, NumError.ErrRange)
          else parseLoop base base0 cutoff maxVal cs n1 us

/-- The base and the remaining digits `ParseUint` settles on for `base = 0`: a leading `0`
selects binary (`0b`), octal (`0o` or a bare `0`) or hexadecimal (`0x`). -/
def detectBase (s : GoString) : Nat × GoString :=
  match s with
  | c0 :: rest =>
    if c0 = '0' then
      match rest with
      | c1 :: c2 :: more =>
        if lower c1 = 98 then (2, c2 :: more)
        else if lower c1 = 111 then (8, c2 :: more)
        else if lower c1 = 120 then (16, c2 :: more)
        else (8, rest)
      | _ => (8, rest)
    else (10, s)
  | [] => (10, s)

/-- The Go call `strconv.ParseUint(s, base, bitSize)`: the pair of the value and the error
(`none` for `nil`). -/
def ParseUint (s : GoString) (base bitSize : Nat) : Nat × Option NumError :=
  if s = [] then (0, some NumError.ErrSyntax)
  else
    let base0 := decide (base = 0)
    let sel : Option (Nat × GoString) :=
      if 2 ≤ base ∧ base ≤ 36 then some (base, s)
      else if base = 0 then some (detectBase s)
      else none
    match sel with
    | none => (0, some NumError.ErrBase)
    | some (b, digits) =>
      if bitSize > 64 then (0, some NumError.ErrBitSize)
      else
        let bits := if bitSize = 0 then IntSize else bitSize
        let cutoff := maxUint64 / b + 1
        let maxVal := 2 ^ bits - 1
        match parseLoop b base0 cutoff maxVal digits 0 false with
        | Sum.inl (v, e) => (v, some e)
        | Sum.inr (n, us) =>
          if us = true ∧ underscoreOK s = false then (0, some NumError.ErrSyntax)
          else (n, none)

/-- The Go call `strconv.ParseInt(s, base, bitSize)`: the pair of the value and the error
(`none` for `nil`). -/
def ParseInt (s : GoString) (base bitSize : Nat) : Int × Option NumError :=
  match s with
  | [] => (0, some NumError.ErrSyntax)
  | c :: cs =>
    let neg := decide (c = '-')
    let rest := if c = '+' ∨ c = '-' then cs else s
    match ParseUint rest base bitSize with
    | (_, some NumError.ErrSyntax) => (0, some NumError.ErrSyntax)
    | (_, some NumError.ErrBase) => (0, some NumError.ErrBase)
    | (_, some NumError.ErrBitSize) => (0, some NumError.ErrBitSize)
    | (un, _) =>
      let bits := if bitSize = 0 then IntSize else bitSize
      let cutoff := 2 ^ (bits - 1)
      if neg = false ∧ un ≥ cutoff then ((cutoff : Int) - 1, some NumError.ErrRange)
      else if neg = true ∧ un > cutoff then (-(cutoff : Int), some NumError.ErrRange)
      else (if neg then -(un : Int) else (un : Int), none)

/-! ## `cast.ToInt64`, `cast.ToInt32`, `cast.ToInt` on a string -/

/-- The part of `s` the group `[-+]?` matches at its start: the sign, or nothing. -/
def leadingSign (s : GoString) : GoString :=
  match s with
  | c :: _ => if c = '-' ∨ c = '+' then [c] else []
  | [] => []

/-- The match of `stringNumberRe`, the pattern `^([-+]?\d*)(\.\d*)?$` of `cast`, against the
whole of `s`: `some m` with `m` the first group (the sign and the digits before the dot) when
`s` is an optional sign, digits, and optionally a dot followed by digits; `none` when `s` does
not match. -/
def stringNumberRe (s : GoString) : Option GoString :=
  let sign := leadingSign s
  let rest := s.drop sign.length
  let whole := rest.takeWhile (fun c => decide ('0' ≤ c ∧ c ≤ '9'))
  match rest.dropWhile (fun c => decide ('0' ≤ c ∧ c ≤ '9')) with
  | [] => some (sign ++ whole)
  | c :: frac =>
    if c = '.' ∧ frac.all (fun d => decide ('0' ≤ d ∧ d ≤ '9')) = true then some (sign ++ whole)
    else none

/-- The helper `trimDecimal(s)` of `cast`: a string without a dot is returned unchanged; a
string that matches `stringNumberRe` is cut to its integer part with the sign (`1.5` becomes
`1`), a missing integer part being written `0`; any other string is returned unchanged. -/
def trimDecimal (s : GoString) : GoString :=
  if '.' ∉ s then s
  else
    match stringNumberRe s with
    | some m =>
      if m = ['-'] ∨ m = ['+'] then m ++ ['0']
      else if m = [] then ['0']
      else m
    | none => s

/-- The two's-complement conversion of an integer to a signed type of `bits` bits. -/
def wrapInt (bits : Nat) (v : Int) : Int :=
  let m := v % (2 ^ bits : Int)
  if m ≥ (2 ^ (bits - 1) : Int) then m - (2 ^ bits : Int) else m

/-- The call `cast.ToInt64(s)` for a string `s`: `strconv.ParseInt(trimDecimal(s), 0, 0)`,
and `0` when that reports an error. -/
def castToInt64 (s : GoString) : Int :=
  match ParseInt (trimDecimal s) 0 0 with
  | (v, none) => v
  | (_, some _) => 0

/-- The call `cast.ToInt32(s)` for a string `s`: the parsed value converted by `int32(v)`,
and `0` when parsing reports an error. -/
def castToInt32 (s : GoString) : Int :=
  match ParseInt (trimDecimal s) 0 0 with
  | (v, none) => wrapInt 32 v
  | (_, some _) => 0

/-- The call `cast.ToInt(s)` for a string `s`: the parsed value converted by `int(v)`, and
`0` when parsing reports an error. -/
def castToInt (s : GoString) : Int :=
  match ParseInt (trimDecimal s) 0 0 with
  | (v, none) => wrapInt IntSize v
  | (_, some _) => 0

/-! ## `convert.go`: comma separated values -/

/-- `ToInt64s` 将string slice转换成[1,2,3...]的int64 slice. -/
def ToInt64s (strSlice : List GoString) : List Int :=
  strSlice.map castToInt64

/-- `ToInt32s` 将string slice转换成[1,2,3...]的int32 slice. -/
def ToInt32s (strSlice : List GoString) : List Int :=
  strSlice.map castToInt32

/-- `ToInts` 将string slice转换成[1,2,3...]的int slice. -/
def ToInts (strSlice : List GoString) : List Int :=
  strSlice.map castToInt

/-- `CsvToInt64s` 将逗号分隔的string尝试转换成[1,2,3...]的int64 slice. -/
def CsvToInt64s (s : GoString) : List Int :=
  if s.length = 0 then []
  else
    let tokens := Split ',' s
    if tokens.length = 0 then [] else ToInt64s tokens

/-- `CsvToInt32s` 将逗号分隔的string尝试转换成[1,2,3...]的int32 slice. -/
def CsvToInt32s (s : GoString) : List Int :=
  if s.length = 0 then []
  else
    let tokens := Split ',' s
    if tokens.length = 0 then [] else ToInt32s tokens

/-- `CsvToInts` 将逗号分隔的string尝试转换成[1,2,3...]的int slice. -/
def CsvToInts (s : GoString) : List Int :=
  if s.length = 0 then []
  else
    let tokens := Split ',' s
    if tokens.length = 0 then [] else ToInts tokens

/-! ## `strconv.FormatInt`, `cast.ToStringSlice` and the joiners -/

/-- The decimal digits of `u`, most significant first, written in front of `acc`: the base 10
loop of `formatBits` in `strconv`, which fills its buffer from the right.  `fuel` bounds the
number of digits written. -/
def formatDigits : Nat → Nat → GoString → GoString
  | 0, _, acc => acc
  | fuel + 1, u, acc =>
    if u < 10 then Char.ofNat (48 + u) :: acc
    else formatDigits fuel (u / 10) (Char.ofNat (48 + u % 10) :: acc)

/-- The Go call `strconv.FormatInt(i, 10)`: a minus sign for a negative value, then the
decimal digits of its magnitude. -/
def FormatInt (i : Int) : GoString :=
  let digits := formatDigits (i.natAbs + 1) i.natAbs []
  if i < 0 then '-' :: digits else digits

/-- The call `cast.ToStringSlice(v)` for a slice of `int64` or `int32`: every element is
rendered by `cast.ToString`, which is `strconv.FormatInt(x, 10)` for these types. -/
def castToStringSlice (v : List Int) : List GoString :=
  v.map FormatInt

/-- `Int64sToCsv` 将int64 slice转换成用逗号分隔的字符串: 1,2,3. -/
def Int64sToCsv (int64s : List Int) : GoString :=
  Join [','] (castToStringSlice int64s)

/-- `Int32sToCsv` 将int32 slice转换成用逗号分隔的字符串: 1,2,3. -/
def Int32sToCsv (int32s : List Int) : GoString :=
  Join [','] (castToStringSlice int32s)

/-! ## Unicode character data -/

/-- The Unicode character data the toolchain ships, for the code points outside ASCII:
general categories `L` and `N` (the classes `\p{L}` and `\p{N}` of `regexp`),
`unicode.IsUpper`, `unicode.IsLower`, `unicode.ToLower`, the result of the title caser
`cases.Title(language.English)` on a word that contains a code point outside ASCII, the
script `Han`, and the properties behind `unicode.IsSpace` and `unicode.IsGraphic`. -/
structure UnicodeTables where
  /-- General category `L` (letter). -/
  letter : Char → Bool
  /-- General category `N` (number). -/
  number : Char → Bool
  /-- Whether `unicode.IsUpper` holds. -/
  upper : Char → Bool
  /-- Whether `unicode.IsLower` holds. -/
  lowerCase : Char → Bool
  /-- The result of `unicode.ToLower`. -/
  toLower : Char → Char
  /-- The title caser on a word of letters and numbers that is not all ASCII. -/
  titleWord : GoString → GoString
  /-- Script `Han` (the class `\p{Han}` of `regexp`), outside the rows fixed in `inHan`. -/
  han : Char → Bool
  /-- Property `White_Space`, for the code points above Latin-1 (`unicode.IsSpace`). -/
  space : Char → Bool
  /-- Whether `unicode.IsGraphic` holds. -/
  graphic : Char → Bool

/-- Tables that classify no code point outside ASCII and leave such words unchanged: the
smallest instance of `UnicodeTables`, enough to run the functions on ASCII text. -/
def asciiOnly : UnicodeTables where
  letter := fun _ => false
  number := fun _ => false
  upper := fun _ => false
  lowerCase := fun _ => false
  toLower := fun c => c
  titleWord := fun w => w
  han := fun _ => false
  space := fun _ => false
  graphic := fun _ => false

/-- Tables that hold, outside ASCII, only the rows of U+01F0 (LATIN SMALL LETTER J WITH CARON)
and U+030C (COMBINING CARON) of the Unicode data: U+01F0 is a lower case letter (category
`Ll`) whose title case is `J` followed by U+030C, and U+030C is a mark (category `Mn`),
neither letter nor number, that has no case. -/
def caronTables : UnicodeTables where
  letter := fun c => decide (c.toNat = 0x1F0)
  number := fun _ => false
  upper := fun _ => false
  lowerCase := fun c => decide (c.toNat = 0x1F0)
  toLower := fun c => c
  titleWord := fun w => if w = [Char.ofNat 0x1F0] then ['J', Char.ofNat 0x30C] else w
  han := fun _ => false
  space := fun _ => false
  graphic := fun c => decide (c.toNat = 0x1F0 ∨ c.toNat = 0x30C)

/-- Whether a code point is in ASCII (`r <= unicode.MaxASCII`). -/
def isASCII (c : Char) : Bool := decide (c.toNat < 128)

/-- An ASCII upper case letter `A`..`Z`. -/
def isAsciiUpper (c : Char) : Bool := decide ('A' ≤ c ∧ c ≤ 'Z')

/-- An ASCII lower case letter `a`..`z`. -/
def isAsciiLower (c : Char) : Bool := decide ('a' ≤ c ∧ c ≤ 'z')

/-- An ASCII digit `0`..`9`. -/
def isAsciiDigit (c : Char) : Bool := decide ('0' ≤ c ∧ c ≤ '9')

/-- An ASCII letter. -/
def isAsciiLetter (c : Char) : Bool := isAsciiUpper c || isAsciiLower c

/-- The class `\p{L}`. -/
def inL (U : UnicodeTables) (c : Char) : Bool :=
  if isASCII c then isAsciiLetter c else U.letter c

/-- The class `\p{N}`. -/
def inN (U : UnicodeTables) (c : Char) : Bool :=
  if isASCII c then isAsciiDigit c else U.number c

/-- The function `unicode.IsUpper`. -/
def IsUpper (U : UnicodeTables) (r : Char) : Bool :=
  if isASCII r then isAsciiUpper r else U.upper r

/-- The function `unicode.IsLower`. -/
def IsLower (U : UnicodeTables) (r : Char) : Bool :=
  if isASCII r then isAsciiLower r else U.lowerCase r

/-- The ASCII branch of `unicode.ToLower`: `r += 'a' - 'A'` for `A`..`Z`. -/
def asciiToLower (r : Char) : Char :=
  if isAsciiUpper r then Char.ofNat (r.toNat + 32) else r

/-- The ASCII upper case mapping: `a`..`z` move down by 32. -/
def asciiToUpper (r : Char) : Char :=
  if isAsciiLower r then Char.ofNat (r.toNat - 32) else r

/-- The function `unicode.ToLower`. -/
def ToLower (U : UnicodeTables) (r : Char) : Char :=
  if isASCII r then asciiToLower r else U.toLower r

/-! ## `regexp`: patterns of the form `[class]+` -/

/-- The call `re.FindAll(b, -1)` for a pattern `[class]+`, `p` deciding the class: the
successive leftmost matches, each one extended greedily.  `cur` holds the match in progress,
last code point first. -/
def findAllPlus (p : Char → Bool) : GoString → GoString → List GoString
  | [], cur => if cur = [] then [] else [cur.reverse]
  | c :: cs, cur =>
    if p c then findAllPlus p cs (c :: cur)
    else if cur = [] then findAllPlus p cs []
    else cur.reverse :: findAllPlus p cs []

/-- The call `re.ReplaceAllString(src, repl)` for a pattern `[class]+`, `p` deciding the
class, and a replacement without `$`: every match is replaced by `repl`.  `inMatch` tells
whether the previous code point belongs to the match being replaced. -/
def replaceAllPlus (p : Char → Bool) (repl : GoString) : GoString → Bool → GoString
  | [], _ => []
  | c :: cs, inMatch =>
    if p c then
      if inMatch then replaceAllPlus p repl cs true
      else repl ++ replaceAllPlus p repl cs true
    else c :: replaceAllPlus p repl cs false

/-! ## `convert.go`: camel case and snake case -/

/-- The class of `rxCameling`, the pattern `[\p{L}\p{N}]+`. -/
def rxCameling (U : UnicodeTables) (c : Char) : Bool := inL U c || inN U c

/-- The transform loop of the title caser on a word of ASCII letters and digits: a letter
is cased, and is mapped to upper case when it is the first one of the word (`isMidWord` is
false) and to lower case otherwise; a digit is copied and does not end the word. -/
def titleLoop : GoString → Bool → GoString
  | [], _ => []
  | c :: cs, isMidWord =>
    if isAsciiLetter c then
      (if isMidWord then asciiToLower c else asciiToUpper c) :: titleLoop cs true
    else c :: titleLoop cs isMidWord

/-- The call `cases.Title(language.English).Bytes(val)` on a match of `rxCameling`. -/
def Title (U : UnicodeTables) (val : GoString) : GoString :=
  if val.all isASCII then titleLoop val false else U.titleWord val

/-- `ToCamelCase` converts from underscore separated form to camel case form. -/
def ToCamelCase (U : UnicodeTables) (s : GoString) : GoString :=
  let chunks := findAllPlus (rxCameling U) s []
  Join [] (chunks.map (Title U))

/-- The loop of `ToSnakeCase` over `runes`, from index `i` on: `runes[i]` is lowered, and an
underscore follows it when `runes[i+1]` is upper case and `runes[i]` is lower case. -/
def snakeLoop (U : UnicodeTables) : GoString → GoString
  | [] => []
  | [r] => [ToLower U r]
  | r :: r1 :: rest =>
    if IsUpper U r1 && IsLower U r then ToLower U r :: '_' :: snakeLoop U (r1 :: rest)
    else ToLower U r :: snakeLoop U (r1 :: rest)

/-- `ToSnakeCase` converts from camel case form to underscore separated form. -/
def ToSnakeCase (U : UnicodeTables) (s : GoString) : GoString :=
  snakeLoop U (ToCamelCase U s)

/-! ## `text.go`: character class filters -/

/-- The class of `nonNumericRegex`, the pattern `[^0-9 ]+`. -/
def nonNumericRegex (c : Char) : Bool := !(isAsciiDigit c || c == ' ')

/-- The class of `nonAlphanumericRegex`, the pattern `[^a-zA-Z0-9 ]+`. -/
def nonAlphanumericRegex (c : Char) : Bool :=
  !(isAsciiLower c || isAsciiUpper c || isAsciiDigit c || c == ' ')

/-- `OnlyNumeric` 去除数字以外的所有字符. -/
def OnlyNumeric (s : GoString) : GoString :=
  replaceAllPlus nonNumericRegex [] s false

/-- `OnlyAlphaNumeric` 去除字符数字以外的所有字符. -/
def OnlyAlphaNumeric (s : GoString) : GoString :=
  replaceAllPlus nonAlphanumericRegex [] s false

/-! ## `text.go`: `OnlyChinese` and `CleanString` -/

/-- The class `\p{Han}`: no ASCII code point is in the script, the code points U+4E00 to
U+9FA5 (the CJK unified ideographs of Unicode 1.1) are in it in every version of the tables,
and the other rows are those of the toolchain. -/
def inHan (U : UnicodeTables) (c : Char) : Bool :=
  if isASCII c then false
  else if 0x4E00 ≤ c.toNat ∧ c.toNat ≤ 0x9FA5 then true
  else U.han c

/-- The class of `nonChineseRegex`, the pattern `[^\p{Han}]+`. -/
def nonChineseRegex (U : UnicodeTables) (c : Char) : Bool := !inHan U c

/-- `OnlyChinese` 去除中文以外的所有字符. -/
def OnlyChinese (U : UnicodeTables) (s : GoString) : GoString :=
  replaceAllPlus (nonChineseRegex U) [] s false

/-- The function `unicode.IsSpace`: in Latin-1 the spaces are `\t`, `\n`, `\v`, `\f`, `\r`,
the space, U+0085 and U+00A0; above Latin-1 the property `White_Space` decides. -/
def IsSpace (U : UnicodeTables) (r : Char) : Bool :=
  if r.toNat ≤ 0xFF then
    decide (r = '\t' ∨ r = '\n' ∨ r.toNat = 0x0B ∨ r.toNat = 0x0C ∨ r = '\r' ∨ r = ' ' ∨
      r.toNat = 0x85 ∨ r.toNat = 0xA0)
  else U.space r

/-- The function `unicode.IsGraphic`: in ASCII the graphic code points are U+0020 to U+007E
(the control characters are not graphic). -/
def IsGraphic (U : UnicodeTables) (r : Char) : Bool :=
  if isASCII r then decide (0x20 ≤ r.toNat ∧ r.toNat ≤ 0x7E) else U.graphic r

/-- The Go call `strings.TrimLeftFunc(s, f)`: `s` without its leading code points that
satisfy `f`. -/
def TrimLeftFunc (f : Char → Bool) (s : GoString) : GoString :=
  s.dropWhile f

/-- The Go call `strings.TrimRightFunc(s, f)`: `s` without its trailing code points that
satisfy `f`. -/
def TrimRightFunc (f : Char → Bool) (s : GoString) : GoString :=
  (s.reverse.dropWhile f).reverse

/-- The Go call `strings.TrimSpace(s)`: `s` without leading and trailing white space, as
`unicode.IsSpace` defines it. -/
def TrimSpace (U : UnicodeTables) (s : GoString) : GoString :=
  TrimRightFunc (IsSpace U) (TrimLeftFunc (IsSpace U) s)

/-- The Go call `strings.ToLower(s)`: every code point mapped by `unicode.ToLower`. -/
def stringsToLower (U : UnicodeTables) (s : GoString) : GoString :=
  s.map (ToLower U)

/-- The Go call `strings.Map(mapping, s)`: every code point is replaced by its image, and
dropped when the mapping returns a negative value (`none`). -/
def stringsMap (mapping : Char → Option Char) : GoString → GoString
  | [] => []
  | c :: cs =>
    match mapping c with
    | some r => r :: stringsMap mapping cs
    | none => stringsMap mapping cs

/-- `removeInvisibleCharacter` 去除掉不能显示的字符. -/
def removeInvisibleCharacter (U : UnicodeTables) (origStr : GoString) : GoString :=
  stringsMap (fun r => if IsGraphic U r then some r else none) origStr

/-- `CleanString` 处理字符串, args[0]为是否转换为小写. -/
def CleanString (U : UnicodeTables) (origStr : GoString) (args : List Bool) : GoString :=
  let s := TrimSpace U origStr
  let toLower := match args with
    | a :: _ => a
    | [] => false
  let s := if toLower then stringsToLower U s else s
  removeInvisibleCharacter U s

/-! ## `convert.go`: `ToString`, `ToBytes` and `ToSlice`

These functions never look inside a text, so here a string and a byte slice are both the
sequence of their bytes (`ByteSeq`), valid UTF-8 or not. -/

/-- A sequence of bytes: the content of a Go `string` or `[]byte`. -/
abbrev ByteSeq := List (Fin 256)

/-- A value passed as `any`, by the case the type switch of `ToString` and `ToBytes` takes:
a `string`, a `[]byte`, or a value of any other dynamic type. -/
inductive AnyValue (α : Type) where
  | string (s : ByteSeq)
  | bytes (b : ByteSeq)
  | other (v : α)

/-- The error `errors.Wrapf(err, "marshal value, value: %v", value)`: the cause and the value
the message names. -/
structure WrappedError (ε α : Type) where
  cause : ε
  value : α

/-- `StringToBytes` converts text to byte slice without a memory allocation. -/
def StringToBytes (s : ByteSeq) : ByteSeq := s

/-- `BytesToString` converts byte slice to text without a memory allocation. -/
def BytesToString (b : ByteSeq) : ByteSeq := b

/-- `ToString` 尝试将值转换成字符串.  `marshal` is `json.Marshal` on the values of the
other dynamic types: the pair of its bytes and its error (`none` for `nil`). -/
def ToString {α ε : Type} (marshal : α → ByteSeq × Option ε) (value : AnyValue α) :
    ByteSeq × Option ε :=
  match value with
  | AnyValue.string reply => (reply, none)
  | AnyValue.bytes reply => (BytesToString reply, none)
  | AnyValue.other v =>
    match marshal v with
    | (_, some err) => ([], some err)
    | (bs, none) => (BytesToString bs, none)

/-- The function `ToBytes`, with `json.Marshal` as in `ToString`; the `nil` slice is `[]`. -/
def ToBytes {α ε : Type} (marshal : α → ByteSeq × Option ε) (value : AnyValue α) :
    ByteSeq × Option (WrappedError ε α) :=
  match value with
  | AnyValue.string t => (StringToBytes t, none)
  | AnyValue.bytes t => (t, none)
  | AnyValue.other v =>
    match marshal v with
    | (_, some err) => ([], some ⟨err, v⟩)
    | (bs, none) => (bs, none)

/-- The kinds of `reflect.Kind`. -/
inductive Kind where
  | Invalid | Bool | Int | Int8 | Int16 | Int32 | Int64
  | Uint | Uint8 | Uint16 | Uint32 | Uint64 | Uintptr
  | Float32 | Float64 | Complex64 | Complex128
  | Array | Chan | Func | Interface | Map | Pointer | Slice | String | Struct | UnsafePointer
  deriving DecidableEq, Repr

/-- What `reflect.ValueOf(data)` tells `ToSlice` about `data`: its kind and, for a slice or
an array, its elements as `Index(i).Interface()` boxes them (`elems` is empty for the other
kinds). -/
structure ReflectValue (β : Type) where
  kind : Kind
  elems : List β

/-- The method `Len` of `reflect.Value` for a slice or an array. -/
def ReflectValue.Len {β : Type} (v : ReflectValue β) : Nat := v.elems.length

/-- `ToSlice` 将传过来的数据转换成[]any; the `nil` slice is `[]`. -/
def ToSlice {β : Type} (data : ReflectValue β) : List β :=
  if data.kind ≠ Kind.Slice then []
  else List.ofFn (fun i : Fin data.Len => data.elems.get i)

/-- The range of `int32`. -/
def inInt32 (v : Int) : Prop := -(2 ^ 31 : Int) ≤ v ∧ v < (2 ^ 31 : Int)

instance (v : Int) : Decidable (inInt32 v) := by
  unfold inInt32
  infer_instance

/-! ## Decimal notation (specification side) -/

/-- The number a string of decimal digits denotes, read from the left in base 10. -/
def decVal (ds : GoString) : Nat :=
  ds.foldl (fun n c => 10 * n + (c.toNat - 48)) 0

/-- The digit string of a token: the token without its leading `+` or `-` sign. -/
def tokenDigits (t : GoString) : GoString :=
  match t with
  | c :: cs => if c = '+' ∨ c = '-' then cs else t
  | [] => t

/-- Whether a token starts with a minus sign. -/
def tokenNeg (t : GoString) : Bool :=
  match t with
  | c :: _ => decide (c = '-')
  | [] => false

/-- A valid base-10 integer: an optional sign followed by one or more decimal digits. -/
def isBase10 (t : GoString) : Bool :=
  decide (tokenDigits t ≠ []) && (tokenDigits t).all isAsciiDigit

/-- The integer a base-10 token denotes. -/
def base10Value (t : GoString) : Int :=
  if tokenNeg t then -(decVal (tokenDigits t) : Int) else (decVal (tokenDigits t) : Int)

/-- The range of `int64`. -/
def inInt64 (v : Int) : Prop := -(2 ^ 63 : Int) ≤ v ∧ v < (2 ^ 63 : Int)

instance (v : Int) : Decidable (inInt64 v) := by
  unfold inInt64
  infer_instance

/-- A digit string without its leading zeros; the last digit always stays. -/
def stripZeros : GoString → GoString
  | [] => []
  | [c] => [c]
  | c :: d :: rest => if c = '0' then stripZeros (d :: rest) else c :: d :: rest

/-- The canonical decimal form of a base-10 token: no plus sign, no leading zeros, and no
minus sign in front of zero. -/
def canonicalDecimal (t : GoString) : GoString :=
  let m := stripZeros (tokenDigits t)
  if tokenNeg t = true ∧ m ≠ ['0'] then '-' :: m else m

/-- A digit string written without a leading zero: `0` itself, or digits that do not start
with `0`. -/
def noLeadingZero (ds : GoString) : Bool :=
  decide (ds = ['0']) || decide (ds.head? ≠ some '0')

/-! ## Words and title case (specification side) -/

/-- The maximal runs of code points of a class `p` in `s`, in order: the non-empty pieces of
`s` between the code points outside the class. -/
def maximalRuns (p : Char → Bool) (s : GoString) : List GoString :=
  (s.splitOnP (fun c => !p c)).filter (fun w => !w.isEmpty)

/-- An ASCII word in title case: its first letter in upper case, every later letter in lower
case, every other character unchanged. -/
def titleCased (w : GoString) : GoString :=
  w.takeWhile (fun c => !isAsciiLetter c) ++
    match w.dropWhile (fun c => !isAsciiLetter c) with
    | [] => []
    | c :: cs => asciiToUpper c :: cs.map asciiToLower

/-! ## Facts about `Split` and `Join` -/

theorem Split_ne_nil (sep : Char) (s : GoString) : Split sep s ≠ [] := by
  induction s with
  | nil => simp [Split]
  | cons c cs ih =>
    simp only [Split]
    split_ifs
    · simp
    · cases h : Split sep cs with
      | nil => exact absurd h ih
      | cons t ts => simp

theorem Split_length (sep : Char) (s : GoString) :
    (Split sep s).length = s.count sep + 1 := by
  induction s with
  | nil => simp [Split]
  | cons c cs ih =>
    simp only [Split]
    by_cases hc : c = sep
    · subst hc
      simp [ih]
    · have hne : (c == sep) = false := by simpa using hc
      rw [if_neg hc, List.count_cons, hne]
      cases h : Split sep cs with
      | nil => exact absurd h (Split_ne_nil sep cs)
      | cons t ts =>
        rw [h] at ih
        simpa using ih

theorem Join_Split (sep : Char) (s : GoString) : Join [sep] (Split sep s) = s := by
  induction s with
  | nil => simp [Split, Join]
  | cons c cs ih =>
    simp only [Split]
    by_cases hc : c = sep
    · subst hc
      rw [if_pos rfl]
      cases h : Split c cs with
      | nil => exact absurd h (Split_ne_nil c cs)
      | cons t ts =>
        rw [h] at ih
        simp [Join, ih]
    · rw [if_neg hc]
      cases h : Split sep cs with
      | nil => exact absurd h (Split_ne_nil sep cs)
      | cons t ts =>
        rw [h] at ih
        cases ts with
        | nil => simpa [Join] using ih
        | cons u us =>
          simp only [Join] at ih ⊢
          simp [← ih]

theorem not_mem_of_mem_Split (sep : Char) (s : GoString) :
    ∀ t ∈ Split sep s, sep ∉ t := by
  induction s with
  | nil => simp [Split]
  | cons c cs ih =>
    simp only [Split]
    by_cases hc : c = sep
    · rw [if_pos hc]
      intro t ht
      rcases List.mem_cons.1 ht with h | h
      · simp [h]
      · exact ih t h
    · rw [if_neg hc]
      cases h : Split sep cs with
      | nil => exact absurd h (Split_ne_nil sep cs)
      | cons u us =>
        rw [h] at ih
        intro t ht
        rcases List.mem_cons.1 ht with h1 | h1
        · subst h1
          have := ih u (List.mem_cons_self _ _)
          simp only [List.mem_cons, not_or]
          exact ⟨fun e => hc e.symm, this⟩
        · exact ih t (List.mem_cons_of_mem _ h1)

/-! ## Tokens without a digit are coerced to `0` -/

theorem not_digit_ne_zero {c : Char} (h : isAsciiDigit c = false) : c ≠ '0' := by
  intro e
  subst e
  exact absurd h (by decide)

theorem parseLoop_no_digit (cutoff maxVal : Nat) (l : GoString)
    (h : ∀ c ∈ l, isAsciiDigit c = false) (n : Nat) (us : Bool) :
    parseLoop 10 true cutoff maxVal l n us = Sum.inl (0, NumError.ErrSyntax) ∨
    ((∀ c ∈ l, c = '_') ∧
      parseLoop 10 true cutoff maxVal l n us = Sum.inr (n, if l = [] then us else true)) := by
  induction l generalizing n us with
  | nil => right; simp [parseLoop]
  | cons c cs ih =>
    have hc : isAsciiDigit c = false := h c (List.mem_cons_self _ _)
    have hcs : ∀ d ∈ cs, isAsciiDigit d = false := fun d hd => h d (List.mem_cons_of_mem _ hd)
    have hnd : ¬ ('0' ≤ c ∧ c ≤ '9') := by simpa [isAsciiDigit] using hc
    by_cases hu : c = '_'
    · subst hu
      rcases ih hcs n true with h1 | ⟨h1, h2⟩
      · left
        simp [parseLoop, h1]
      · right
        refine ⟨?_, ?_⟩
        · intro d hd
          rcases List.mem_cons.1 hd with e | e
          · exact e
          · exact h1 d e
        · simp only [parseLoop, and_self, if_true, h2]
          by_cases hnil : cs = [] <;> simp [hnil]
    · left
      simp only [parseLoop, hu, false_and, if_false, hnd]
      by_cases hl : 97 ≤ lower c ∧ lower c ≤ 122
      · have : lower c - 97 + 10 ≥ 10 := by omega
        simp [hl, this]
      · simp [hl]

theorem underscoreOK_underscores (l : GoString) (hne : l ≠ []) (h : ∀ c ∈ l, c = '_') :
    underscoreOK l = false := by
  cases l with
  | nil => exact absurd rfl hne
  | cons c cs =>
    have hc : c = '_' := h c (List.mem_cons_self _ _)
    subst hc
    cases cs with
    | nil => decide
    | cons d ds =>
      have hd : d = '_' := h d (by simp)
      subst hd
      simp [underscoreOK, underscoreLoop]

theorem ParseUint_no_digit (s : GoString) (h : ∀ c ∈ s, isAsciiDigit c = false) :
    (ParseUint s 0 0).2 = some NumError.ErrSyntax := by
  cases s with
  | nil => rfl
  | cons c cs =>
    have hc : c ≠ '0' := not_digit_ne_zero (h c (List.mem_cons_self _ _))
    have hdb : detectBase (c :: cs) = (10, c :: cs) := by simp [detectBase, hc]
    simp only [ParseUint, hdb]
    simp only [List.cons_ne_nil, if_false, show ¬ (2 ≤ 0 ∧ 0 ≤ 36) by omega, if_true,
      show ¬ (0 > 64) by omega, decide_True]
    rcases parseLoop_no_digit (maxUint64 / 10 + 1) (2 ^ IntSize - 1) (c :: cs) h 0 false
      with h1 | ⟨h1, h2⟩
    · rw [h1]
    · rw [h2]
      simp [underscoreOK_underscores (c :: cs) (List.cons_ne_nil _ _) h1]

theorem ParseInt_no_digit (s : GoString) (h : ∀ c ∈ s, isAsciiDigit c = false) :
    ParseInt s 0 0 = (0, some NumError.ErrSyntax) := by
  cases s with
  | nil => rfl
  | cons c cs =>
    have hrest : ∀ d ∈ (if c = '+' ∨ c = '-' then cs else c :: cs), isAsciiDigit d = false := by
      intro d hd
      split_ifs at hd
      · exact h d (List.mem_cons_of_mem _ hd)
      · exact h d hd
    have hu := ParseUint_no_digit _ hrest
    simp only [ParseInt]
    generalize hp : ParseUint (if c = '+' ∨ c = '-' then cs else c :: cs) 0 0 = r at hu
    obtain ⟨v, e⟩ := r
    simp only at hu
    subst hu
    rfl

theorem takeWhile_digit_no_digit (l : GoString) (h : ∀ c ∈ l, isAsciiDigit c = false) :
    l.takeWhile (fun c => decide ('0' ≤ c ∧ c ≤ '9')) = [] := by
  cases l with
  | nil => rfl
  | cons c cs =>
    have hc : isAsciiDigit c = false := h c (List.mem_cons_self _ _)
    have hnd : ¬ ('0' ≤ c ∧ c ≤ '9') := by simpa [isAsciiDigit] using hc
    simp [List.takeWhile_cons, hnd]

theorem leadingSign_cases (t : GoString) :
    leadingSign t = [] ∨ leadingSign t = ['-'] ∨ leadingSign t = ['+'] := by
  cases t with
  | nil => exact Or.inl rfl
  | cons c cs =>
    simp only [leadingSign]
    split_ifs with hc
    · rcases hc with e | e
      · exact Or.inr (Or.inl (by rw [e]))
      · exact Or.inr (Or.inr (by rw [e]))
    · exact Or.inl rfl

theorem stringNumberRe_no_digit (t m : GoString) (h : ∀ c ∈ t, isAsciiDigit c = false)
    (hm : stringNumberRe t = some m) : m = [] ∨ m = ['-'] ∨ m = ['+'] := by
  have hdrop : ∀ n, (t.drop n).takeWhile (fun c => decide ('0' ≤ c ∧ c ≤ '9')) = [] :=
    fun n => takeWhile_digit_no_digit _ (fun c hc => h c (List.mem_of_mem_drop hc))
  have hsign := leadingSign_cases t
  unfold stringNumberRe at hm
  simp only [hdrop, List.append_nil] at hm
  split at hm
  · simp only [Option.some.injEq] at hm
    rw [← hm]
    exact hsign
  · split_ifs at hm
    simp only [Option.some.injEq] at hm
    rw [← hm]
    exact hsign

/-- On a token without a digit `trimDecimal` returns the token, or a zero with an optional
sign. -/
theorem trimDecimal_no_digit (t : GoString) (h : ∀ c ∈ t, isAsciiDigit c = false) :
    trimDecimal t = t ∨ trimDecimal t = ['0'] ∨ trimDecimal t = ['-', '0'] ∨
      trimDecimal t = ['+', '0'] := by
  by_cases hdot : '.' ∉ t
  · exact Or.inl (by simp [trimDecimal, hdot])
  · cases hre : stringNumberRe t with
    | none => exact Or.inl (by simp [trimDecimal, hre])
    | some m =>
      rcases stringNumberRe_no_digit t m h hre with e | e | e
      · subst e
        exact Or.inr (Or.inl (by simp [trimDecimal, hdot, hre]))
      · subst e
        exact Or.inr (Or.inr (Or.inl (by simp [trimDecimal, hdot, hre])))
      · subst e
        exact Or.inr (Or.inr (Or.inr (by simp [trimDecimal, hdot, hre])))

/-- A token that contains no digit (the empty token included) is coerced to `0` by all three
casts. -/
theorem cast_no_digit (t : GoString) (h : ∀ c ∈ t, isAsciiDigit c = false) :
    castToInt64 t = 0 ∧ castToInt32 t = 0 ∧ castToInt t = 0 := by
  rcases trimDecimal_no_digit t h with ht | ht | ht | ht
  · simp [castToInt64, castToInt32, castToInt, ht, ParseInt_no_digit t h]
  · rw [castToInt64, castToInt32, castToInt, ht]
    decide
  · rw [castToInt64, castToInt32, castToInt, ht]
    decide
  · rw [castToInt64, castToInt32, castToInt, ht]
    decide

/-! ## Comma separated values: parsing -/

/-- C1: applied to the empty string, `CsvToInt64s`, `CsvToInt32s` and `CsvToInts` each return
the empty (nil) sequence: its length is 0 and it is not the one-element sequence `[0]`.  The
functions return a plain slice, so there is no error value to produce. -/
theorem csv_empty_string :
    CsvToInt64s [] = [] ∧ CsvToInt32s [] = [] ∧ CsvToInts [] = [] ∧
    (CsvToInt64s []).length = 0 ∧ (CsvToInt32s []).length = 0 ∧ (CsvToInts []).length = 0 ∧
    CsvToInt64s [] ≠ [0] ∧ CsvToInt32s [] ≠ [0] ∧ CsvToInts [] ≠ [0] := by
  decide

/-- C2: for a non-empty string `s`, the three parsers return one element per comma separated
token of `s`, in token order: the tokens are the pieces `Split ',' s` (joined by commas they
give back `s`, and none contains a comma), the result is the cast applied to each token, and
its length is the number of commas of `s` plus one.  A token without any digit, such as the
empty token, is coerced to `0`.  In particular `CsvToInt64s("1,,3") = [1,0,3]`. -/
theorem csv_one_element_per_token (s : GoString) (hs : s ≠ []) :
    (Join [','] (Split ',' s) = s ∧ ∀ t ∈ Split ',' s, ',' ∉ t) ∧
    (CsvToInt64s s = (Split ',' s).map castToInt64 ∧
      CsvToInt32s s = (Split ',' s).map castToInt32 ∧
      CsvToInts s = (Split ',' s).map castToInt) ∧
    ((CsvToInt64s s).length = s.count ',' + 1 ∧
      (CsvToInt32s s).length = s.count ',' + 1 ∧
      (CsvToInts s).length = s.count ',' + 1) ∧
    (∀ t : GoString, (∀ c ∈ t, isAsciiDigit c = false) →
      castToInt64 t = 0 ∧ castToInt32 t = 0 ∧ castToInt t = 0) ∧
    CsvToInt64s "1,,3".toList = [1, 0, 3] := by
  have hlen : s.length ≠ 0 := fun h => hs (List.length_eq_zero.1 h)
  have htok : (Split ',' s).length ≠ 0 := by
    rw [Split_length]
    omega
  have h64 : CsvToInt64s s = (Split ',' s).map castToInt64 := by
    simp [CsvToInt64s, ToInt64s, hlen, htok]
  have h32 : CsvToInt32s s = (Split ',' s).map castToInt32 := by
    simp [CsvToInt32s, ToInt32s, hlen, htok]
  have hint : CsvToInts s = (Split ',' s).map castToInt := by
    simp [CsvToInts, ToInts, hlen, htok]
  refine ⟨⟨Join_Split ',' s, not_mem_of_mem_Split ',' s⟩, ⟨h64, h32, hint⟩, ⟨?_, ?_, ?_⟩,
    cast_no_digit, by decide⟩
  · rw [h64, List.length_map, Split_length]
  · rw [h32, List.length_map, Split_length]
  · rw [hint, List.length_map, Split_length]

/-- The statement of C2 at the input `"1,,3"`. -/
theorem csv_one_element_per_token_witness :
    (Join [','] (Split ',' "1,,3".toList) = "1,,3".toList ∧
      ∀ t ∈ Split ',' "1,,3".toList, ',' ∉ t) ∧
    (CsvToInt64s "1,,3".toList = (Split ',' "1,,3".toList).map castToInt64 ∧
      CsvToInt32s "1,,3".toList = (Split ',' "1,,3".toList).map castToInt32 ∧
      CsvToInts "1,,3".toList = (Split ',' "1,,3".toList).map castToInt) ∧
    ((CsvToInt64s "1,,3".toList).length = "1,,3".toList.count ',' + 1 ∧
      (CsvToInt32s "1,,3".toList).length = "1,,3".toList.count ',' + 1 ∧
      (CsvToInts "1,,3".toList).length = "1,,3".toList.count ',' + 1) ∧
    (∀ t : GoString, (∀ c ∈ t, isAsciiDigit c = false) →
      castToInt64 t = 0 ∧ castToInt32 t = 0 ∧ castToInt t = 0) ∧
    CsvToInt64s "1,,3".toList = [1, 0, 3] :=
  csv_one_element_per_token "1,,3".toList (by decide)

/-! ## Comma separated values: joining -/

theorem digitChar_isAsciiDigit : ∀ d < 10, isAsciiDigit (Char.ofNat (48 + d)) = true := by
  decide

theorem formatDigits_acc (fuel u : Nat) (acc : GoString) :
    formatDigits fuel u acc = formatDigits fuel u [] ++ acc := by
  induction fuel generalizing u acc with
  | zero => simp [formatDigits]
  | succ k ih =>
    simp only [formatDigits]
    split_ifs
    · simp
    · rw [ih (u / 10) (_ :: acc), ih (u / 10) [_]]
      simp

theorem formatDigits_all_digits (fuel u : Nat) :
    ∀ c ∈ formatDigits fuel u [], isAsciiDigit c = true := by
  induction fuel generalizing u with
  | zero => simp [formatDigits]
  | succ k ih =>
    intro c hc
    simp only [formatDigits] at hc
    split_ifs at hc with hu
    · rw [List.mem_singleton] at hc
      subst hc
      exact digitChar_isAsciiDigit u hu
    · rw [formatDigits_acc, List.mem_append, List.mem_singleton] at hc
      rcases hc with hc | hc
      · exact ih (u / 10) c hc
      · subst hc
        exact digitChar_isAsciiDigit (u % 10) (Nat.mod_lt _ (by decide))

theorem formatDigits_ne_nil (fuel u : Nat) : formatDigits (fuel + 1) u [] ≠ [] := by
  simp only [formatDigits]
  split_ifs
  · simp
  · rw [formatDigits_acc]
    simp

/-- The rendering of an integer is not empty, consists of digits after an optional leading
minus sign, and ends in a digit. -/
theorem FormatInt_shape (i : Int) :
    FormatInt i ≠ [] ∧ (∀ c ∈ FormatInt i, c = '-' ∨ isAsciiDigit c = true) ∧
    (∀ c, (FormatInt i).getLast? = some c → isAsciiDigit c = true) := by
  have hne := formatDigits_ne_nil i.natAbs i.natAbs
  have hall := formatDigits_all_digits (i.natAbs + 1) i.natAbs
  unfold FormatInt
  by_cases hneg : i < 0
  · simp only [hneg, if_true]
    refine ⟨by simp, ?_, ?_⟩
    · intro c hc
      rcases List.mem_cons.1 hc with h | h
      · exact Or.inl h
      · exact Or.inr (hall c h)
    · intro c hc
      rw [show '-' :: formatDigits (i.natAbs + 1) i.natAbs [] =
        ['-'] ++ formatDigits (i.natAbs + 1) i.natAbs [] from rfl,
        List.getLast?_append_of_ne_nil _ hne] at hc
      exact hall c (List.mem_of_getLast?_eq_some hc)
  · simp only [hneg, if_false]
    exact ⟨hne, fun c hc => Or.inr (hall c hc), fun c hc => hall c (List.mem_of_getLast?_eq_some hc)⟩

theorem comma_not_mem_FormatInt (i : Int) : ',' ∉ FormatInt i := by
  intro h
  rcases (FormatInt_shape i).2.1 ',' h with h1 | h1
  · exact absurd h1 (by decide)
  · exact absurd h1 (by decide)

theorem Join_cons_cons (sep a b : GoString) (rest : List GoString) :
    Join sep (a :: b :: rest) = a ++ sep ++ Join sep (b :: rest) := rfl

theorem Join_count_comma (l : List GoString) (h : ∀ t ∈ l, ',' ∉ t) :
    (Join [','] l).count ',' = l.length - 1 := by
  induction l with
  | nil => simp [Join]
  | cons a rest ih =>
    have ha : a.count ',' = 0 := List.count_eq_zero.2 (h a (List.mem_cons_self _ _))
    cases rest with
    | nil => simpa [Join] using ha
    | cons b more =>
      have := ih (fun t ht => h t (List.mem_cons_of_mem _ ht))
      rw [Join_cons_cons, List.count_append, List.count_append, ha, this]
      simp
      omega

theorem Join_head? (sep a : GoString) (rest : List GoString) (ha : a ≠ []) :
    (Join sep (a :: rest)).head? = a.head? := by
  cases rest with
  | nil => rfl
  | cons b more =>
    rw [Join_cons_cons, List.append_assoc]
    cases a with
    | nil => exact absurd rfl ha
    | cons x xs => rfl

theorem Join_getLast? (sep : GoString) (l : List GoString) (h : ∀ t ∈ l, t ≠ []) :
    (Join sep l).getLast? = l.getLast?.bind List.getLast? := by
  induction l with
  | nil => rfl
  | cons a rest ih =>
    cases rest with
    | nil => simp [Join]
    | cons b more =>
      have hrest := ih (fun t ht => h t (List.mem_cons_of_mem _ ht))
      have hne : Join sep (b :: more) ≠ [] := by
        intro e
        have hb : b ≠ [] := h b (by simp)
        have := congrArg List.head? e
        rw [Join_head? sep b more hb] at this
        cases b with
        | nil => exact hb rfl
        | cons x xs => simp at this
      rw [Join_cons_cons, List.getLast?_append_of_ne_nil _ hne, hrest]
      simp [List.getLast?_cons_cons]

/-! ## Decimal digits read back -/

theorem digitChar_toNat : ∀ d < 10, (Char.ofNat (48 + d)).toNat - 48 = d := by
  decide

theorem decVal_append_singleton (l : GoString) (c : Char) :
    decVal (l ++ [c]) = 10 * decVal l + (c.toNat - 48) := by
  simp [decVal, List.foldl_append]

theorem formatDigits_succ (k u : Nat) :
    formatDigits (k + 1) u [] =
      if u < 10 then [Char.ofNat (48 + u)]
      else formatDigits k (u / 10) [] ++ [Char.ofNat (48 + u % 10)] := by
  simp only [formatDigits]
  split_ifs
  · rfl
  · rw [formatDigits_acc]

/-- Reading the digits written for `u` gives `u` back. -/
theorem decVal_formatDigits (fuel u : Nat) (h : u < fuel) :
    decVal (formatDigits fuel u []) = u := by
  induction fuel generalizing u with
  | zero => omega
  | succ k ih =>
    rw [formatDigits_succ]
    split_ifs with hu
    · simp [decVal, digitChar_toNat u hu]
    · rw [decVal_append_singleton, ih (u / 10) (by omega),
        digitChar_toNat (u % 10) (Nat.mod_lt _ (by decide))]
      omega

/-- C4: `Int64sToCsv(xs)` and `Int32sToCsv(xs)` are the decimal renderings of the elements, in
order, joined by commas: each rendering is an optional minus sign followed by a non-empty
digit string that denotes the magnitude of the element.  The result is the empty string for
the empty sequence, contains exactly `len(xs) - 1` commas, and neither starts nor ends with
a comma.  In particular `Int32sToCsv([1,2,3]) = "1,2,3"`. -/
theorem ints_to_csv_joined (xs : List Int) :
    (Int64sToCsv xs = Join [','] (xs.map FormatInt) ∧
      Int32sToCsv xs = Join [','] (xs.map FormatInt)) ∧
    (∀ x ∈ xs, ∃ ds : GoString, ds ≠ [] ∧ (∀ c ∈ ds, isAsciiDigit c = true) ∧
      decVal ds = x.natAbs ∧ FormatInt x = if x < 0 then '-' :: ds else ds) ∧
    (Int64sToCsv [] = [] ∧ Int32sToCsv [] = []) ∧
    ((Int64sToCsv xs).count ',' = xs.length - 1 ∧
      (Int64sToCsv xs).head? ≠ some ',' ∧ (Int64sToCsv xs).getLast? ≠ some ',') ∧
    ((Int32sToCsv xs).count ',' = xs.length - 1 ∧
      (Int32sToCsv xs).head? ≠ some ',' ∧ (Int32sToCsv xs).getLast? ≠ some ',') ∧
    Int32sToCsv [1, 2, 3] = "1,2,3".toList := by
  have hnc : ∀ t ∈ xs.map FormatInt, ',' ∉ t := by
    intro t ht
    obtain ⟨x, -, rfl⟩ := List.mem_map.1 ht
    exact comma_not_mem_FormatInt x
  have hne : ∀ t ∈ xs.map FormatInt, t ≠ [] := by
    intro t ht
    obtain ⟨x, -, rfl⟩ := List.mem_map.1 ht
    exact (FormatInt_shape x).1
  have hcount : (Join [','] (xs.map FormatInt)).count ',' = xs.length - 1 := by
    rw [Join_count_comma _ hnc, List.length_map]
  have hhead : (Join [','] (xs.map FormatInt)).head? ≠ some ',' := by
    cases xs with
    | nil => simp [Join]
    | cons x rest =>
      rw [List.map_cons, Join_head? _ _ _ (FormatInt_shape x).1]
      intro e
      exact comma_not_mem_FormatInt x (List.mem_of_mem_head? e)
  have hlast : (Join [','] (xs.map FormatInt)).getLast? ≠ some ',' := by
    rw [Join_getLast? _ _ hne]
    intro e
    obtain ⟨t, ht, hc⟩ := Option.bind_eq_some.1 e
    exact hnc t (List.mem_of_getLast?_eq_some ht) (List.mem_of_getLast?_eq_some hc)
  refine ⟨⟨rfl, rfl⟩, ?_, ⟨rfl, rfl⟩, ⟨hcount, hhead, hlast⟩, ⟨hcount, hhead, hlast⟩,
    by decide⟩
  intro x _
  exact ⟨formatDigits (x.natAbs + 1) x.natAbs [], formatDigits_ne_nil _ _,
    formatDigits_all_digits _ _, decVal_formatDigits _ _ (Nat.lt_succ_self _), rfl⟩

/-! ## Parsing decimal tokens -/

theorem isAsciiDigit_iff (c : Char) : isAsciiDigit c = true ↔ 48 ≤ c.toNat ∧ c.toNat ≤ 57 := by
  simp only [isAsciiDigit, decide_eq_true_eq, Char.le_def]
  rfl

theorem trimDecimal_no_dot (s : GoString) (h : '.' ∉ s) : trimDecimal s = s := by
  simp [trimDecimal, h]

/-- The value of a digit string read after the value `n`. -/
theorem foldl_dec_ge (ds : GoString) (n : Nat) :
    n ≤ ds.foldl (fun n c => 10 * n + (c.toNat - 48)) n := by
  induction ds generalizing n with
  | nil => simp
  | cons c cs ih =>
    simp only [List.foldl_cons]
    exact le_trans (by omega) (ih _)

theorem parseLoop_digits (ds : GoString) (hd : ∀ c ∈ ds, isAsciiDigit c = true) (n : Nat)
    (us : Bool) (hv : ds.foldl (fun n c => 10 * n + (c.toNat - 48)) n < 2 ^ 64) :
    parseLoop 10 true (maxUint64 / 10 + 1) (2 ^ IntSize - 1) ds n us =
      Sum.inr (ds.foldl (fun n c => 10 * n + (c.toNat - 48)) n, us) := by
  induction ds generalizing n with
  | nil => simp [parseLoop]
  | cons c cs ih =>
    have hc := (isAsciiDigit_iff c).1 (hd c (List.mem_cons_self _ _))
    have hcs : ∀ d ∈ cs, isAsciiDigit d = true := fun d h => hd d (List.mem_cons_of_mem _ h)
    have hcd : '0' ≤ c ∧ c ≤ '9' := by
      simpa [isAsciiDigit] using hd c (List.mem_cons_self _ _)
    have hu : c ≠ '_' := by
      intro e
      subst e
      exact absurd hc (by decide)
    simp only [List.foldl_cons] at hv ⊢
    have hge := foldl_dec_ge cs (10 * n + (c.toNat - 48))
    have e64 : (2 : Nat) ^ 64 = 18446744073709551616 := by norm_num
    have ecut : maxUint64 / 10 + 1 = 1844674407370955162 := by decide
    have emax : 2 ^ IntSize - 1 = 18446744073709551615 := by decide
    rw [e64] at hv
    have hsmall : 10 * n + (c.toNat - 48) < 18446744073709551616 := lt_of_le_of_lt hge hv
    have hmod1 : n * 10 % 18446744073709551616 = n * 10 := Nat.mod_eq_of_lt (by omega)
    have hmod2 : (n * 10 + (c.toNat - 48)) % 18446744073709551616 = n * 10 + (c.toNat - 48) :=
      Nat.mod_eq_of_lt (by omega)
    have hrec := ih hcs (10 * n + (c.toNat - 48)) (by rw [e64]; exact hv)
    rw [ecut, emax] at hrec
    simp only [parseLoop, hu, false_and, if_false, hcd, and_self, if_true, e64, ecut, emax,
      hmod1, hmod2]
    have h1 : ¬ (c.toNat - 48 ≥ 10) := by omega
    have h2 : ¬ (n ≥ 1844674407370955162) := by omega
    have h3 : ¬ (n * 10 + (c.toNat - 48) < n * 10 ∨
        n * 10 + (c.toNat - 48) > 18446744073709551615) := by omega
    simp only [h1, h2, h3, if_false]
    rw [show n * 10 + (c.toNat - 48) = 10 * n + (c.toNat - 48) by omega]
    exact hrec

theorem ParseUint_decimal (ds : GoString) (hne : ds ≠ [])
    (hd : ∀ c ∈ ds, isAsciiDigit c = true) (hz : noLeadingZero ds = true)
    (hv : decVal ds < 2 ^ 64) : ParseUint ds 0 0 = (decVal ds, none) := by
  by_cases h0 : ds = ['0']
  · subst h0
    decide
  · cases ds with
    | nil => exact absurd rfl hne
    | cons c cs =>
      have hc : c ≠ '0' := by
        simpa [noLeadingZero, h0] using hz
      have hdb : detectBase (c :: cs) = (10, c :: cs) := by simp [detectBase, hc]
      have hloop := parseLoop_digits (c :: cs) hd 0 false hv
      simp only [ParseUint, hdb]
      simp only [List.cons_ne_nil, if_false, show ¬ (2 ≤ 0 ∧ 0 ≤ 36) by omega, if_true,
        show ¬ (0 > 64) by omega, decide_True, hloop]
      simp [decVal]

theorem ParseInt_decimal (t : GoString) (hb : isBase10 t = true)
    (hz : noLeadingZero (tokenDigits t) = true) (hr : inInt64 (base10Value t)) :
    ParseInt t 0 0 = (base10Value t, none) := by
  simp only [isBase10, Bool.and_eq_true, decide_eq_true_eq, List.all_eq_true] at hb
  obtain ⟨hne, hd⟩ := hb
  cases t with
  | nil => exact absurd rfl hne
  | cons c cs =>
    have e63 : (2 : Int) ^ 63 = 9223372036854775808 := by norm_num
    have n63 : (2 : Nat) ^ (IntSize - 1) = 9223372036854775808 := by decide
    have n64 : (2 : Nat) ^ 64 = 18446744073709551616 := by norm_num
    unfold inInt64 at hr
    rw [e63] at hr
    by_cases hsign : c = '+' ∨ c = '-'
    · have htd : tokenDigits (c :: cs) = cs := by simp [tokenDigits, hsign]
      rw [htd] at hne hd hz
      have hval : base10Value (c :: cs) =
          if c = '-' then -(decVal cs : Int) else (decVal cs : Int) := by
        simp [base10Value, tokenNeg, htd]
      rw [hval] at hr ⊢
      have hlt : decVal cs < 2 ^ 64 := by
        rw [n64]
        split_ifs at hr <;> omega
      have hu := ParseUint_decimal cs hne hd hz hlt
      simp only [ParseInt, hsign, if_true, hu, if_true, n63]
      by_cases hm : c = '-'
      · simp only [hm, if_true] at hr ⊢
        have h1 : ¬ (decVal cs > 9223372036854775808) := by omega
        simp [h1]
      · simp only [hm, if_false] at hr ⊢
        have h1 : ¬ (decVal cs ≥ 9223372036854775808) := by omega
        simp [h1]
    · have hm : c ≠ '-' := fun e => hsign (Or.inr e)
      have htd : tokenDigits (c :: cs) = c :: cs := by simp [tokenDigits, hsign]
      rw [htd] at hne hd hz
      have hval : base10Value (c :: cs) = (decVal (c :: cs) : Int) := by
        simp [base10Value, tokenNeg, htd, hm]
      rw [hval] at hr ⊢
      have hlt : decVal (c :: cs) < 2 ^ 64 := by
        rw [n64]
        omega
      have hu := ParseUint_decimal (c :: cs) hne hd hz hlt
      have hrest : (if c = '+' ∨ c = '-' then cs else c :: cs) = c :: cs := if_neg hsign
      simp only [ParseInt]
      rw [hrest, hu]
      have h1 : ¬ (decVal (c :: cs) ≥ 9223372036854775808) := by omega
      simp [n63, hm, h1]

theorem decVal_pos (c : Char) (cs : GoString) (hc : isAsciiDigit c = true) (h0 : c ≠ '0') :
    1 ≤ decVal (c :: cs) := by
  have hb := (isAsciiDigit_iff c).1 hc
  have hne : c.toNat ≠ 48 := by
    intro e
    apply h0
    rw [← Char.ofNat_toNat c, e]
  have := foldl_dec_ge cs (10 * 0 + (c.toNat - 48))
  simp only [decVal, List.foldl_cons]
  omega

/-- Writing the digits of the number a digit string denotes gives the string back, when the
string does not start with `0`. -/
theorem formatDigits_decVal (ds : GoString) :
    ds ≠ [] → (∀ c ∈ ds, isAsciiDigit c = true) → ds.head? ≠ some '0' →
    ∀ fuel, decVal ds < fuel → formatDigits fuel (decVal ds) [] = ds := by
  induction ds using List.reverseRecOn with
  | nil => intro h; exact absurd rfl h
  | append_singleton init c ih =>
    intro _ hd hh fuel hf
    have hc := (isAsciiDigit_iff c).1 (hd c (by simp))
    have hchar : Char.ofNat (48 + (c.toNat - 48)) = c := by
      rw [show 48 + (c.toNat - 48) = c.toNat by omega]
      exact Char.ofNat_toNat c
    rw [decVal_append_singleton] at hf ⊢
    cases fuel with
    | zero => omega
    | succ k =>
      rw [formatDigits_succ]
      cases init with
      | nil =>
        have hv : decVal [] = 0 := rfl
        rw [hv]
        have hlt : 10 * 0 + (c.toNat - 48) < 10 := by omega
        rw [if_pos hlt]
        simp [hchar]
      | cons a rest =>
        have ha : isAsciiDigit a = true := hd a (by simp)
        have ha0 : a ≠ '0' := by
          intro e
          apply hh
          simp [e]
        have hpos := decVal_pos a rest ha ha0
        have hge : ¬ (10 * decVal (a :: rest) + (c.toNat - 48) < 10) := by omega
        rw [if_neg hge]
        have hdiv : (10 * decVal (a :: rest) + (c.toNat - 48)) / 10 = decVal (a :: rest) := by
          omega
        have hmod : (10 * decVal (a :: rest) + (c.toNat - 48)) % 10 = c.toNat - 48 := by
          omega
        rw [hdiv, hmod, hchar]
        rw [ih (List.cons_ne_nil _ _) (fun x hx => hd x (List.mem_append_left _ hx))
          (by simpa using ha0) k (by omega)]

theorem stripZeros_noLeadingZero (ds : GoString) (hz : noLeadingZero ds = true) :
    stripZeros ds = ds := by
  match ds with
  | [] => rfl
  | [c] => rfl
  | c :: d :: rest =>
    have hc : c ≠ '0' := by
      simpa [noLeadingZero] using hz
    simp [stripZeros, hc]

/-- On a base-10 token written without a leading zero, the rendering of its value is its
canonical decimal form. -/
theorem FormatInt_base10Value (t : GoString) (hb : isBase10 t = true)
    (hz : noLeadingZero (tokenDigits t) = true) :
    FormatInt (base10Value t) = canonicalDecimal t := by
  simp only [isBase10, Bool.and_eq_true, decide_eq_true_eq, List.all_eq_true] at hb
  obtain ⟨hne, hd⟩ := hb
  have hstrip := stripZeros_noLeadingZero _ hz
  simp only [canonicalDecimal, base10Value]
  generalize tokenDigits t = ds at hne hd hz hstrip ⊢
  by_cases h0 : ds = ['0']
  · subst h0
    cases hn : tokenNeg t <;> simp [FormatInt, hn, decVal, stripZeros, formatDigits]
  · cases ds with
    | nil => exact absurd rfl hne
    | cons c cs =>
      have hc0 : c ≠ '0' := by
        simpa [noLeadingZero, h0] using hz
      have hpos := decVal_pos c cs (hd c (List.mem_cons_self _ _)) hc0
      have hfmt := formatDigits_decVal (c :: cs) hne hd (by simpa using hc0)
        (decVal (c :: cs) + 1) (Nat.lt_succ_self _)
      rw [hstrip]
      simp only [FormatInt]
      cases hn : tokenNeg t
      · simp only [Bool.false_eq_true, if_false, false_and, Int.natAbs_ofNat, hfmt]
        have : ¬ ((decVal (c :: cs) : Int) < 0) := by omega
        simp [this]
      · simp only [if_true, true_and, Int.natAbs_neg, Int.natAbs_ofNat, hfmt]
        have : (-(decVal (c :: cs) : Int) < 0) := by omega
        simp [this, h0]

theorem castToInt64_base10 (t : GoString) (hb : isBase10 t = true)
    (hz : noLeadingZero (tokenDigits t) = true) (hr : inInt64 (base10Value t)) :
    castToInt64 t = base10Value t := by
  have hdot : '.' ∉ t := by
    intro hmem
    simp only [isBase10, Bool.and_eq_true, decide_eq_true_eq, List.all_eq_true] at hb
    cases t with
    | nil => simp at hmem
    | cons c cs =>
      by_cases hsign : c = '+' ∨ c = '-'
      · have htd : tokenDigits (c :: cs) = cs := by simp [tokenDigits, hsign]
        rw [htd] at hb
        rcases List.mem_cons.1 hmem with e | e
        · rcases hsign with h | h <;> rw [h] at e <;> exact absurd e (by decide)
        · exact absurd (hb.2 _ e) (by decide)
      · have htd : tokenDigits (c :: cs) = c :: cs := by simp [tokenDigits, hsign]
        rw [htd] at hb
        exact absurd (hb.2 _ hmem) (by decide)
  simp [castToInt64, trimDecimal_no_dot t hdot, ParseInt_decimal t hb hz hr]

/-! ## The round trip `ToInt64s` then `Int64sToCsv` -/

/-- C3 (as stated, refuted): the token `010` is a valid base-10 integer inside the `int64`
range whose canonical decimal form is `10`, but `ToInt64s` reads it by its base prefix as the
octal number 8, so `Int64sToCsv(ToInt64s(["010"]))` is `"8"` and not `"10"`. -/
theorem csv_roundtrip_leading_zero :
    isBase10 "010".toList = true ∧ inInt64 (base10Value "010".toList) ∧
    canonicalDecimal "010".toList = "10".toList ∧
    ToInt64s ["010".toList] = [8] ∧
    Int64sToCsv (ToInt64s ["010".toList]) = "8".toList ∧
    Int64sToCsv (ToInt64s ["010".toList]) ≠ Join [','] (["010".toList].map canonicalDecimal) := by
  decide

/-- C3 (amended): for every list of tokens in which each token is a valid base-10 integer
inside the `int64` range written without a leading zero (an optional sign, then `0` or digits
that do not start with `0`), `ToInt64s(tokens)` is the list of the values the tokens denote,
and `Int64sToCsv(ToInt64s(tokens))` is the canonical decimal forms of the tokens joined by
commas; `["1","2","3"]` gives `[1,2,3]` and then `"1,2,3"`. -/
theorem csv_roundtrip_canonical (tokens : List GoString)
    (h : ∀ t ∈ tokens, isBase10 t = true ∧ noLeadingZero (tokenDigits t) = true ∧
      inInt64 (base10Value t)) :
    ToInt64s tokens = tokens.map base10Value ∧
    Int64sToCsv (ToInt64s tokens) = Join [','] (tokens.map canonicalDecimal) ∧
    ToInt64s ["1".toList, "2".toList, "3".toList] = [1, 2, 3] ∧
    Int64sToCsv [1, 2, 3] = "1,2,3".toList := by
  have hvals : ToInt64s tokens = tokens.map base10Value := by
    unfold ToInt64s
    apply List.map_congr_left
    intro t ht
    exact castToInt64_base10 t (h t ht).1 (h t ht).2.1 (h t ht).2.2
  refine ⟨hvals, ?_, by decide, by decide⟩
  rw [hvals]
  unfold Int64sToCsv castToStringSlice
  rw [List.map_map]
  congr 1
  apply List.map_congr_left
  intro t ht
  exact FormatInt_base10Value t (h t ht).1 (h t ht).2.1

/-- The statement of C3 (amended) at the tokens `-5`, `+7`, `0` and `9223372036854775807`. -/
theorem csv_roundtrip_canonical_witness :
    ToInt64s ["-5".toList, "+7".toList, "0".toList, "9223372036854775807".toList] =
      ["-5".toList, "+7".toList, "0".toList, "9223372036854775807".toList].map base10Value ∧
    Int64sToCsv
        (ToInt64s ["-5".toList, "+7".toList, "0".toList, "9223372036854775807".toList]) =
      Join [',']
        (["-5".toList, "+7".toList, "0".toList, "9223372036854775807".toList].map
          canonicalDecimal) ∧
    ToInt64s ["1".toList, "2".toList, "3".toList] = [1, 2, 3] ∧
    Int64sToCsv [1, 2, 3] = "1,2,3".toList :=
  csv_roundtrip_canonical
    ["-5".toList, "+7".toList, "0".toList, "9223372036854775807".toList] (by decide)

/-! ## Character class filters -/

/-- Replacing every match of `[class]+` by the empty string keeps exactly the code points
outside the class, in order. -/
theorem replaceAllPlus_nil (p : Char → Bool) (s : GoString) (inMatch : Bool) :
    replaceAllPlus p [] s inMatch = s.filter (fun c => !p c) := by
  induction s generalizing inMatch with
  | nil => rfl
  | cons c cs ih =>
    simp only [replaceAllPlus]
    by_cases hp : p c = true
    · simp [hp, ih]
    · simp [hp, ih]

/-- C9: `OnlyNumeric(s)` is exactly the subsequence of the characters of `s` that are an ASCII
digit `0`..`9` or a space, in their original order: it is `s` filtered by that class, so every
such character is kept and every other one is removed.  `OnlyAlphaNumeric(s)` is the same
with the ASCII letters `a`..`z` and `A`..`Z` added to the kept class. -/
theorem only_numeric_is_filter (s : GoString) :
    OnlyNumeric s = s.filter (fun c => isAsciiDigit c || c == ' ') ∧
    OnlyAlphaNumeric s =
      s.filter (fun c => isAsciiLower c || isAsciiUpper c || isAsciiDigit c || c == ' ') ∧
    (OnlyNumeric s).Sublist s ∧ (OnlyAlphaNumeric s).Sublist s ∧
    (∀ c, c ∈ OnlyNumeric s ↔ c ∈ s ∧ (('0' ≤ c ∧ c ≤ '9') ∨ c = ' ')) ∧
    (∀ c, c ∈ OnlyAlphaNumeric s ↔
      c ∈ s ∧ (('a' ≤ c ∧ c ≤ 'z') ∨ ('A' ≤ c ∧ c ≤ 'Z') ∨ ('0' ≤ c ∧ c ≤ '9') ∨ c = ' ')) ∧
    OnlyNumeric "a1 b-2,3".toList = "1 23".toList ∧
    OnlyAlphaNumeric "a1, B-2_c".toList = "a1 B2c".toList := by
  have h1 : OnlyNumeric s = s.filter (fun c => isAsciiDigit c || c == ' ') := by
    unfold OnlyNumeric
    rw [replaceAllPlus_nil]
    congr 1
    funext c
    simp [nonNumericRegex]
  have h2 : OnlyAlphaNumeric s =
      s.filter (fun c => isAsciiLower c || isAsciiUpper c || isAsciiDigit c || c == ' ') := by
    unfold OnlyAlphaNumeric
    rw [replaceAllPlus_nil]
    congr 1
    funext c
    simp [nonAlphanumericRegex]
  refine ⟨h1, h2, ?_, ?_, ?_, ?_, by decide, by decide⟩
  · rw [h1]
    exact List.filter_sublist _
  · rw [h2]
    exact List.filter_sublist _
  · intro c
    rw [h1, List.mem_filter]
    simp [isAsciiDigit]
  · intro c
    rw [h2, List.mem_filter]
    simp [isAsciiDigit, isAsciiLower, isAsciiUpper, or_assoc]

/-- C10: `OnlyNumeric` is idempotent: `OnlyNumeric(OnlyNumeric(s)) = OnlyNumeric(s)` for every
string `s`. -/
theorem only_numeric_idempotent (s : GoString) :
    OnlyNumeric (OnlyNumeric s) = OnlyNumeric s := by
  unfold OnlyNumeric
  rw [replaceAllPlus_nil, replaceAllPlus_nil, List.filter_filter]
  congr 1
  funext c
  simp

/-! ## Matches of `[class]+` are the maximal runs of the class -/

theorem Join_nil_sep (l : List GoString) : Join [] l = l.flatten := by
  induction l with
  | nil => rfl
  | cons a rest ih =>
    cases rest with
    | nil => simp [Join]
    | cons b more =>
      rw [Join_cons_cons, ih]
      simp

theorem findAllPlus_eq_splitOnP (p : Char → Bool) (s cur : GoString) :
    findAllPlus p s cur =
      ((s.splitOnP (fun c => !p c)).modifyHead (fun w => cur.reverse ++ w)).filter
        (fun w => !w.isEmpty) := by
  induction s generalizing cur with
  | nil =>
    simp only [findAllPlus, List.splitOnP_nil, List.modifyHead_cons, List.append_nil]
    by_cases hc : cur = []
    · simp [hc]
    · simp [hc]
  | cons c cs ih =>
    rw [List.splitOnP_cons]
    simp only [findAllPlus]
    by_cases hp : p c = true
    · simp only [hp, if_true, Bool.not_true, Bool.false_eq_true, if_false]
      rw [ih (c :: cur)]
      congr 1
      cases cs.splitOnP (fun c => !p c) with
      | nil => rfl
      | cons w ws => simp [List.modifyHead]
    · have hp1 : p c = false := by simpa using hp
      have hp2 : (!p c) = true := by simp [hp1]
      simp only [hp1, hp2, Bool.false_eq_true, if_false, if_true, List.modifyHead_cons,
        List.append_nil]
      have hrec := ih []
      have hid : (cs.splitOnP (fun c => !p c)).modifyHead (fun w => ([] : GoString).reverse ++ w) =
          cs.splitOnP (fun c => !p c) := by
        cases cs.splitOnP (fun c => !p c) with
        | nil => rfl
        | cons w ws => simp [List.modifyHead]
      rw [hid] at hrec
      by_cases hc : cur = []
      · simp [hc, hrec]
      · simp [hc, hrec]

/-- The matches of `[class]+` in `s` are the non-empty pieces of `s` between the code points
outside the class: the maximal runs of the class, in order. -/
theorem findAllPlus_runs (p : Char → Bool) (s : GoString) :
    findAllPlus p s [] = (s.splitOnP (fun c => !p c)).filter (fun w => !w.isEmpty) := by
  rw [findAllPlus_eq_splitOnP]
  congr 1
  cases s.splitOnP (fun c => !p c) with
  | nil => rfl
  | cons w ws => simp [List.modifyHead]

theorem findAllPlus_props (p : Char → Bool) (s cur : GoString) (hcur : ∀ c ∈ cur, p c = true) :
    (∀ w ∈ findAllPlus p s cur, w ≠ [] ∧ ∀ c ∈ w, p c = true) ∧
    (findAllPlus p s cur).flatten = cur.reverse ++ s.filter p := by
  induction s generalizing cur with
  | nil =>
    simp only [findAllPlus]
    by_cases hc : cur = []
    · simp [hc]
    · simp only [hc, if_false, List.mem_singleton, List.flatten_cons, List.flatten_nil,
        List.append_nil, List.filter_nil, and_true]
      intro w hw
      subst hw
      exact ⟨by simpa using hc, fun c h => hcur c (List.mem_reverse.1 h)⟩
  | cons c cs ih =>
    simp only [findAllPlus]
    by_cases hp : p c = true
    · simp only [hp, if_true]
      have hcur2 : ∀ d ∈ c :: cur, p d = true := by
        intro d hd
        rcases List.mem_cons.1 hd with e | e
        · rw [e]; exact hp
        · exact hcur d e
      obtain ⟨h1, h2⟩ := ih (c :: cur) hcur2
      refine ⟨h1, ?_⟩
      rw [h2]
      simp [List.filter_cons, hp]
    · obtain ⟨h1, h2⟩ := ih [] (by simp)
      have hp1 : p c = false := by simpa using hp
      simp only [hp1, Bool.false_eq_true, if_false]
      by_cases hc : cur = []
      · simp only [hc, if_true]
        refine ⟨h1, ?_⟩
        rw [h2]
        simp [List.filter_cons, hp1]
      · simp only [hc, if_false]
        refine ⟨?_, ?_⟩
        · intro w hw
          rcases List.mem_cons.1 hw with e | e
          · subst e
            exact ⟨by simpa using hc, fun d h => hcur d (List.mem_reverse.1 h)⟩
          · exact h1 w e
        · rw [List.flatten_cons, h2]
          simp [List.filter_cons, hp1]

/-- A non-empty string made only of code points of the class is its own single match. -/
theorem findAllPlus_all (p : Char → Bool) (s cur : GoString) (hs : ∀ c ∈ s, p c = true) :
    findAllPlus p s cur = if cur.reverse ++ s = [] then [] else [cur.reverse ++ s] := by
  induction s generalizing cur with
  | nil => simp [findAllPlus]
  | cons c cs ih =>
    have hc : p c = true := hs c (List.mem_cons_self _ _)
    simp only [findAllPlus, hc, if_true]
    rw [ih (c :: cur) (fun d hd => hs d (List.mem_cons_of_mem _ hd))]
    simp

/-! ## ASCII letters and the title caser -/

theorem ascii_cases (P : Char → Prop) (h : ∀ n < 128, P (Char.ofNat n)) (c : Char)
    (hc : isASCII c = true) : P c := by
  have hlt : c.toNat < 128 := by simpa [isASCII] using hc
  have := h c.toNat hlt
  rwa [Char.ofNat_toNat] at this

theorem isAsciiUpper_iff (c : Char) : isAsciiUpper c = true ↔ 65 ≤ c.toNat ∧ c.toNat ≤ 90 := by
  simp only [isAsciiUpper, decide_eq_true_eq, Char.le_def]
  rfl

theorem isAsciiLower_iff (c : Char) : isAsciiLower c = true ↔ 97 ≤ c.toNat ∧ c.toNat ≤ 122 := by
  simp only [isAsciiLower, decide_eq_true_eq, Char.le_def]
  rfl

theorem isASCII_of_letter {c : Char} (h : isAsciiLetter c = true) : isASCII c = true := by
  simp only [isAsciiLetter, Bool.or_eq_true, isAsciiUpper_iff, isAsciiLower_iff] at h
  simp only [isASCII, decide_eq_true_eq]
  omega

theorem isASCII_of_digit {c : Char} (h : isAsciiDigit c = true) : isASCII c = true := by
  rw [isAsciiDigit_iff] at h
  simp only [isASCII, decide_eq_true_eq]
  omega

set_option maxRecDepth 100000 in
theorem ascii_letter_table : ∀ n < 128, isAsciiLetter (Char.ofNat n) = true →
    isAsciiLetter (asciiToUpper (Char.ofNat n)) = true ∧
    isAsciiLetter (asciiToLower (Char.ofNat n)) = true ∧
    isAsciiUpper (asciiToUpper (Char.ofNat n)) = true ∧
    isAsciiLower (asciiToLower (Char.ofNat n)) = true ∧
    asciiToUpper (asciiToUpper (Char.ofNat n)) = asciiToUpper (Char.ofNat n) ∧
    asciiToLower (asciiToLower (Char.ofNat n)) = asciiToLower (Char.ofNat n) ∧
    asciiToLower (asciiToUpper (Char.ofNat n)) = asciiToLower (Char.ofNat n) := by
  decide

theorem ascii_letter_facts (c : Char) (h : isAsciiLetter c = true) :
    isAsciiLetter (asciiToUpper c) = true ∧ isAsciiLetter (asciiToLower c) = true ∧
    isAsciiUpper (asciiToUpper c) = true ∧ isAsciiLower (asciiToLower c) = true ∧
    asciiToUpper (asciiToUpper c) = asciiToUpper c ∧
    asciiToLower (asciiToLower c) = asciiToLower c ∧
    asciiToLower (asciiToUpper c) = asciiToLower c :=
  ascii_cases
    (fun d => isAsciiLetter d = true →
      isAsciiLetter (asciiToUpper d) = true ∧ isAsciiLetter (asciiToLower d) = true ∧
      isAsciiUpper (asciiToUpper d) = true ∧ isAsciiLower (asciiToLower d) = true ∧
      asciiToUpper (asciiToUpper d) = asciiToUpper d ∧
      asciiToLower (asciiToLower d) = asciiToLower d ∧
      asciiToLower (asciiToUpper d) = asciiToLower d)
    ascii_letter_table c (isASCII_of_letter h) h

theorem asciiToLower_of_not_letter {c : Char} (h : isAsciiLetter c = false) :
    asciiToLower c = c := by
  have hu : isAsciiUpper c = false := by
    simp only [isAsciiLetter, Bool.or_eq_false_iff] at h
    exact h.1
  simp [asciiToLower, hu]

theorem titleLoop_true (w : GoString) : titleLoop w true = w.map asciiToLower := by
  induction w with
  | nil => rfl
  | cons c cs ih =>
    simp only [titleLoop, List.map_cons, ih]
    cases h : isAsciiLetter c
    · simp [asciiToLower_of_not_letter h]
    · simp

/-- On a word of ASCII letters and digits the title caser produces the word in title case. -/
theorem titleLoop_false (w : GoString) : titleLoop w false = titleCased w := by
  induction w with
  | nil => rfl
  | cons c cs ih =>
    simp only [titleLoop, titleCased, List.takeWhile_cons, List.dropWhile_cons]
    cases h : isAsciiLetter c
    · simp only [Bool.false_eq_true, if_false, Bool.not_false, if_true, List.cons_append, ih]
      rfl
    · simp [titleLoop_true]

theorem titleLoop_mem (w : GoString) (m : Bool) :
    ∀ c ∈ titleLoop w m, c ∈ w ∨ isAsciiLetter c = true := by
  induction w generalizing m with
  | nil => simp [titleLoop]
  | cons d ds ih =>
    intro c hc
    simp only [titleLoop] at hc
    cases h : isAsciiLetter d
    · simp only [h, Bool.false_eq_true, if_false, List.mem_cons] at hc
      rcases hc with e | e
      · exact Or.inl (by simp [e])
      · rcases ih m c e with h1 | h1
        · exact Or.inl (List.mem_cons_of_mem _ h1)
        · exact Or.inr h1
    · have hf := ascii_letter_facts d h
      simp only [h, if_true, List.mem_cons] at hc
      rcases hc with e | e
      · right
        rw [e]
        cases m
        · simpa using hf.1
        · simpa using hf.2.1
      · rcases ih true c e with h1 | h1
        · exact Or.inl (List.mem_cons_of_mem _ h1)
        · exact Or.inr h1

theorem rxCameling_of_letter (U : UnicodeTables) {c : Char} (h : isAsciiLetter c = true) :
    rxCameling U c = true := by
  simp [rxCameling, inL, isASCII_of_letter h, h]

theorem rxCameling_ascii (U : UnicodeTables) {c : Char} (h : isASCII c = true) :
    rxCameling U c = (isAsciiLetter c || isAsciiDigit c) := by
  simp [rxCameling, inL, inN, h]

theorem Title_ascii (U : UnicodeTables) (w : GoString) (h : ∀ c ∈ w, isASCII c = true) :
    Title U w = titleLoop w false := by
  have : w.all isASCII = true := List.all_eq_true.2 h
  simp [Title, this]

/-- The words `ToCamelCase` title-cases are the maximal runs of letters and numbers. -/
theorem ToCamelCase_eq (U : UnicodeTables) (s : GoString) :
    ToCamelCase U s = ((maximalRuns (rxCameling U) s).map (Title U)).flatten := by
  simp only [ToCamelCase, Join_nil_sep, findAllPlus_runs, maximalRuns]

theorem maximalRuns_props (p : Char → Bool) (s : GoString) :
    (∀ w ∈ maximalRuns p s, w ≠ [] ∧ ∀ c ∈ w, p c = true) ∧
    (maximalRuns p s).flatten = s.filter p := by
  have h := findAllPlus_props p s [] (by simp)
  rw [findAllPlus_runs] at h
  simpa [maximalRuns] using h

/-- C5 (as stated, refuted): the title case of the letter U+01F0 is `J` followed by the mark
U+030C, so `ToCamelCase` of the one-letter string U+01F0 holds U+030C, a code point that is
neither letter nor number: the result of `ToCamelCase` does not hold letters and digits only
for every string. -/
theorem camel_case_emits_mark :
    ToCamelCase caronTables [Char.ofNat 0x1F0] = ['J', Char.ofNat 0x30C] ∧
    rxCameling caronTables (Char.ofNat 0x1F0) = true ∧
    rxCameling caronTables (Char.ofNat 0x30C) = false ∧
    (¬ ∀ c ∈ ToCamelCase caronTables [Char.ofNat 0x1F0], rxCameling caronTables c = true) ∧
    (¬ ∀ (U : UnicodeTables) (s : GoString), ∀ c ∈ ToCamelCase U s, rxCameling U c = true) := by
  have h1 : ToCamelCase caronTables [Char.ofNat 0x1F0] = ['J', Char.ofNat 0x30C] := by decide
  have h2 : rxCameling caronTables (Char.ofNat 0x30C) = false := by decide
  have h3 : ¬ ∀ c ∈ ToCamelCase caronTables [Char.ofNat 0x1F0],
      rxCameling caronTables c = true := by
    intro h
    have := h (Char.ofNat 0x30C) (by rw [h1]; simp)
    rw [h2] at this
    exact absurd this (by decide)
  exact ⟨h1, by decide, h2, h3, fun h => h3 (h caronTables [Char.ofNat 0x1F0])⟩

/-- C5 (amended): `ToCamelCase(s)` is the concatenation, in order and with no separator, of the
maximal runs of letters and numbers of `s`, each passed through the title caser (on an ASCII
run: its first letter in upper case, the later letters in lower case).  Every run is non-empty
and holds letters and numbers only, and the runs together are `s` with every character that
is not a letter or number discarded; when the letters and numbers of `s` are ASCII, the
result holds letters and digits only, so no separator character.  In particular
`ToCamelCase("hello_world-42") = "HelloWorld42"` and `ToCamelCase("user_id") = "UserId"`. -/
theorem camel_case_joins_title_cased_runs (U : UnicodeTables) (s : GoString) :
    findAllPlus (rxCameling U) s [] = maximalRuns (rxCameling U) s ∧
    ToCamelCase U s = ((maximalRuns (rxCameling U) s).map (Title U)).flatten ∧
    (∀ w ∈ maximalRuns (rxCameling U) s, w ≠ [] ∧ ∀ c ∈ w, rxCameling U c = true) ∧
    (maximalRuns (rxCameling U) s).flatten = s.filter (rxCameling U) ∧
    (∀ w ∈ maximalRuns (rxCameling U) s, (∀ c ∈ w, isASCII c = true) →
      Title U w = titleCased w) ∧
    ((∀ c ∈ s, rxCameling U c = true → isASCII c = true) →
      ∀ c ∈ ToCamelCase U s, isAsciiLetter c = true ∨ isAsciiDigit c = true) ∧
    ToCamelCase U "hello_world-42".toList = "HelloWorld42".toList ∧
    ToCamelCase U "user_id".toList = "UserId".toList := by
  obtain ⟨hruns, hflat⟩ := maximalRuns_props (rxCameling U) s
  refine ⟨findAllPlus_runs _ s, ToCamelCase_eq U s, hruns, hflat, ?_, ?_, rfl, rfl⟩
  · intro w _ hw
    rw [Title_ascii U w hw, titleLoop_false]
  · intro hascii c hc
    rw [ToCamelCase_eq, List.mem_flatten] at hc
    obtain ⟨t, ht, hct⟩ := hc
    obtain ⟨w, hw, rfl⟩ := List.mem_map.1 ht
    have hwp := (hruns w hw).2
    have hws : ∀ d ∈ w, d ∈ s := by
      intro d hd
      have : d ∈ (maximalRuns (rxCameling U) s).flatten :=
        List.mem_flatten.2 ⟨w, hw, hd⟩
      rw [hflat] at this
      exact (List.mem_filter.1 this).1
    have hwa : ∀ d ∈ w, isASCII d = true := fun d hd => hascii d (hws d hd) (hwp d hd)
    rw [Title_ascii U w hwa] at hct
    rcases titleLoop_mem w false c hct with h1 | h1
    · have := hwp c h1
      rw [rxCameling_ascii U (hwa c h1)] at this
      simpa using this
    · exact Or.inl h1

/-! ## Applying `ToCamelCase` twice -/

set_option maxRecDepth 100000 in
theorem ascii_upper_table : ∀ n < 128, isAsciiLetter (Char.ofNat n) = true →
    isAsciiUpper (asciiToLower (Char.ofNat n)) = false := by
  decide

theorem isAsciiUpper_asciiToLower (c : Char) (h : isAsciiLetter c = true) :
    isAsciiUpper (asciiToLower c) = false :=
  ascii_cases (fun d => isAsciiLetter d = true → isAsciiUpper (asciiToLower d) = false)
    ascii_upper_table c (isASCII_of_letter h) h

theorem titleLoop_append (a b : GoString) (m : Bool) :
    titleLoop (a ++ b) m = titleLoop a m ++ titleLoop b (m || a.any isAsciiLetter) := by
  induction a generalizing m with
  | nil => simp [titleLoop]
  | cons c cs ih =>
    simp only [List.cons_append, titleLoop, List.any_cons]
    cases h : isAsciiLetter c
    · simp [ih]
    · simp [ih]

theorem titleLoop_no_letter (a : GoString) (m : Bool) (h : a.any isAsciiLetter = false) :
    titleLoop a m = a := by
  induction a with
  | nil => rfl
  | cons c cs ih =>
    simp only [List.any_cons, Bool.or_eq_false_iff] at h
    simp [titleLoop, h.1, ih h.2]

theorem titleLoop_any_letter (w : GoString) (m : Bool) :
    (titleLoop w m).any isAsciiLetter = w.any isAsciiLetter := by
  induction w generalizing m with
  | nil => rfl
  | cons c cs ih =>
    simp only [titleLoop]
    cases h : isAsciiLetter c
    · simp [h, ih]
    · have hf := ascii_letter_facts c h
      cases m <;> simp [h, hf.1, hf.2.1]

theorem titleLoop_idem (w : GoString) (m : Bool) :
    titleLoop (titleLoop w m) m = titleLoop w m := by
  induction w generalizing m with
  | nil => rfl
  | cons c cs ih =>
    simp only [titleLoop]
    cases h : isAsciiLetter c
    · simp [titleLoop, h, ih]
    · have hf := ascii_letter_facts c h
      cases m
      · simp only [Bool.false_eq_true, if_false, if_true, titleLoop, hf.1, hf.2.2.2.2.1]
        rw [titleLoop_true, titleLoop_true, List.map_map]
        congr 1
        apply List.map_congr_left
        intro d _
        simp only [Function.comp]
        cases hd : isAsciiLetter d
        · rw [asciiToLower_of_not_letter hd, asciiToLower_of_not_letter hd]
        · exact (ascii_letter_facts d hd).2.2.2.2.2.1
      · simp only [if_true, titleLoop, hf.2.1, hf.2.2.2.2.2.1, ih]

theorem titleLoop_countP_upper (w : GoString) (m : Bool) :
    (titleLoop w m).countP isAsciiUpper = if (!m && w.any isAsciiLetter) = true then 1 else 0 := by
  induction w generalizing m with
  | nil => simp [titleLoop]
  | cons c cs ih =>
    simp only [titleLoop]
    cases h : isAsciiLetter c
    · have hu : isAsciiUpper c = false := by
        simp only [isAsciiLetter, Bool.or_eq_false_iff] at h
        exact h.1
      simp [List.countP_cons, hu, ih, h]
    · have hf := ascii_letter_facts c h
      have hl := isAsciiUpper_asciiToLower c h
      cases m
      · simp [List.countP_cons, hf.2.2.1, ih, h]
      · simp [List.countP_cons, hl, ih, h]

/-- The concatenation of title-cased words is in title case when at most one of the words
contains a letter (none, after a letter was seen). -/
theorem flatten_title_fixed (ws : List GoString) (m : Bool)
    (h : (ws.filter (fun w => w.any isAsciiLetter)).length ≤ if m = true then 0 else 1) :
    titleLoop ((ws.map (fun w => titleLoop w false)).flatten) m =
      (ws.map (fun w => titleLoop w false)).flatten := by
  induction ws generalizing m with
  | nil => rfl
  | cons w rest ih =>
    simp only [List.map_cons, List.flatten_cons, titleLoop_append, titleLoop_any_letter]
    cases hw : w.any isAsciiLetter
    · have hfix : titleLoop w false = w := titleLoop_no_letter w false hw
      rw [hfix, titleLoop_no_letter w m hw, Bool.or_false]
      rw [ih m (by simpa [List.filter_cons, hw] using h)]
    · simp only [List.filter_cons, hw, if_true, List.length_cons] at h
      cases m
      · simp only [Bool.false_eq_true, if_false] at h
        rw [titleLoop_idem, Bool.false_or]
        have hrest : (rest.filter (fun w => w.any isAsciiLetter)).length ≤
            if true = true then 0 else 1 := by
          simp only [if_true]
          omega
        rw [ih true hrest]
      · simp at h

theorem flatten_title_countP (ws : List GoString) :
    ((ws.map (fun w => titleLoop w false)).flatten).countP isAsciiUpper =
      (ws.filter (fun w => w.any isAsciiLetter)).length := by
  induction ws with
  | nil => rfl
  | cons w rest ih =>
    simp only [List.map_cons, List.flatten_cons, List.countP_append, ih,
      titleLoop_countP_upper, List.filter_cons]
    cases hw : w.any isAsciiLetter
    · simp
    · simp
      omega

theorem maximalRuns_ascii (U : UnicodeTables) (s : GoString)
    (hascii : ∀ c ∈ s, rxCameling U c = true → isASCII c = true) :
    ∀ w ∈ maximalRuns (rxCameling U) s, ∀ d ∈ w, isASCII d = true := by
  obtain ⟨hruns, hflat⟩ := maximalRuns_props (rxCameling U) s
  intro w hw d hd
  have hmem : d ∈ (maximalRuns (rxCameling U) s).flatten := List.mem_flatten.2 ⟨w, hw, hd⟩
  rw [hflat] at hmem
  exact hascii d (List.mem_filter.1 hmem).1 ((hruns w hw).2 d hd)

/-- When the letters and numbers of `s` are ASCII, every run goes through the ASCII loop of
the title caser. -/
theorem ToCamelCase_ascii (U : UnicodeTables) (s : GoString)
    (hascii : ∀ c ∈ s, rxCameling U c = true → isASCII c = true) :
    ToCamelCase U s =
      ((maximalRuns (rxCameling U) s).map (fun w => titleLoop w false)).flatten := by
  rw [ToCamelCase_eq]
  congr 1
  apply List.map_congr_left
  intro w hw
  exact Title_ascii U w (maximalRuns_ascii U s hascii w hw)

theorem ToCamelCase_ascii_chars (U : UnicodeTables) (s : GoString)
    (hascii : ∀ c ∈ s, rxCameling U c = true → isASCII c = true) :
    ∀ c ∈ ToCamelCase U s, isASCII c = true ∧ rxCameling U c = true := by
  obtain ⟨hruns, -⟩ := maximalRuns_props (rxCameling U) s
  intro c hc
  rw [ToCamelCase_ascii U s hascii, List.mem_flatten] at hc
  obtain ⟨t, ht, hct⟩ := hc
  obtain ⟨w, hw, rfl⟩ := List.mem_map.1 ht
  rcases titleLoop_mem w false c hct with h1 | h1
  · exact ⟨maximalRuns_ascii U s hascii w hw c h1, (hruns w hw).2 c h1⟩
  · exact ⟨isASCII_of_letter h1, rxCameling_of_letter U h1⟩

/-- On a string of ASCII letters and digits, `ToCamelCase` is the title caser applied to the
whole string. -/
theorem ToCamelCase_single_run (U : UnicodeTables) (r : GoString)
    (h : ∀ c ∈ r, isASCII c = true ∧ rxCameling U c = true) :
    ToCamelCase U r = titleLoop r false := by
  have hall := findAllPlus_all (rxCameling U) r [] (fun c hc => (h c hc).2)
  simp only [ToCamelCase, Join_nil_sep, hall, List.reverse_nil, List.nil_append]
  by_cases hr : r = []
  · subst hr
    rfl
  · simp [hr, Title_ascii U r (fun c hc => (h c hc).1)]

/-- C6 (as stated, refuted): `ToCamelCase("hello_world")` is `"HelloWorld"`, and applying
`ToCamelCase` again gives `"Helloworld"`, because the title caser lowers every letter after
the first one of a word; this holds whatever the Unicode tables are. -/
theorem camel_case_twice_differs :
    (¬ ∃ U : UnicodeTables,
      ToCamelCase U (ToCamelCase U "hello_world".toList) = ToCamelCase U "hello_world".toList) ∧
    (∀ U : UnicodeTables, ToCamelCase U "hello_world".toList = "HelloWorld".toList ∧
      ToCamelCase U (ToCamelCase U "hello_world".toList) = "Helloworld".toList) := by
  have hval : ∀ U : UnicodeTables, ToCamelCase U "hello_world".toList = "HelloWorld".toList ∧
      ToCamelCase U (ToCamelCase U "hello_world".toList) = "Helloworld".toList :=
    fun U => ⟨rfl, rfl⟩
  refine ⟨?_, hval⟩
  rintro ⟨U, h⟩
  rw [(hval U).2, (hval U).1] at h
  exact absurd h (by decide)

/-- C6 (amended): for every input `s` whose letters and numbers are ASCII (any other
character is a separator), `ToCamelCase(ToCamelCase(s))` is `ToCamelCase(s)` put in title case
as one word, and it equals `ToCamelCase(s)` if and only if at most one of the maximal runs of
letters and digits of `s` contains a letter. -/
theorem camel_case_idempotent_iff (U : UnicodeTables) (s : GoString)
    (hascii : ∀ c ∈ s, rxCameling U c = true → isASCII c = true) :
    ToCamelCase U (ToCamelCase U s) = titleCased (ToCamelCase U s) ∧
    (ToCamelCase U (ToCamelCase U s) = ToCamelCase U s ↔
      ((maximalRuns (rxCameling U) s).filter (fun w => w.any isAsciiLetter)).length ≤ 1) := by
  have htwice : ToCamelCase U (ToCamelCase U s) = titleLoop (ToCamelCase U s) false :=
    ToCamelCase_single_run U _ (ToCamelCase_ascii_chars U s hascii)
  refine ⟨by rw [htwice, titleLoop_false], ?_⟩
  rw [htwice, ToCamelCase_ascii U s hascii]
  constructor
  · intro h
    have hc := congrArg (List.countP isAsciiUpper) h
    rw [titleLoop_countP_upper, flatten_title_countP] at hc
    rw [← hc]
    split_ifs <;> omega
  · intro h
    exact flatten_title_fixed _ false (by simpa using h)

/-- The statement of C6 (amended) at the input `"hello_42-7"`, with tables that classify no
code point outside ASCII. -/
theorem camel_case_idempotent_iff_witness :
    ToCamelCase asciiOnly (ToCamelCase asciiOnly "hello_42-7".toList) =
      titleCased (ToCamelCase asciiOnly "hello_42-7".toList) ∧
    (ToCamelCase asciiOnly (ToCamelCase asciiOnly "hello_42-7".toList) =
        ToCamelCase asciiOnly "hello_42-7".toList ↔
      ((maximalRuns (rxCameling asciiOnly) "hello_42-7".toList).filter
        (fun w => w.any isAsciiLetter)).length ≤ 1) :=
  camel_case_idempotent_iff asciiOnly "hello_42-7".toList (by decide)

/-! ## `ToSnakeCase` -/

theorem snakeLoop_cons (U : UnicodeTables) (x : Char) (tl : GoString) :
    snakeLoop U (x :: tl) =
      ToLower U x ::
        (if (tl.head?.map (fun y => IsUpper U y && IsLower U x)) = some true then
          '_' :: snakeLoop U tl
        else snakeLoop U tl) := by
  cases tl with
  | nil => simp [snakeLoop]
  | cons y rest =>
    simp only [snakeLoop, List.head?_cons, Option.map_some', Option.some.injEq]
    split_ifs <;> rfl

theorem titleLoop_true_head (cs : GoString) (y : Char)
    (h : (titleLoop cs true).head? = some y) : isAsciiUpper y = false := by
  cases cs with
  | nil => simp [titleLoop] at h
  | cons c rest =>
    simp only [titleLoop, if_true] at h
    cases hl : isAsciiLetter c
    · simp only [hl, Bool.false_eq_true, if_false, List.head?_cons, Option.some.injEq] at h
      subst h
      simp only [isAsciiLetter, Bool.or_eq_false_iff] at hl
      exact hl.1
    · simp only [hl, if_true, List.head?_cons, Option.some.injEq] at h
      subst h
      exact isAsciiUpper_asciiToLower c hl

theorem isASCII_asciiToUpper (c : Char) (h : isAsciiLetter c = true) :
    isASCII (asciiToUpper c) = true :=
  isASCII_of_letter (ascii_letter_facts c h).1

theorem isASCII_asciiToLower (c : Char) (h : isAsciiLetter c = true) :
    isASCII (asciiToLower c) = true :=
  isASCII_of_letter (ascii_letter_facts c h).2.1

/-- After the title caser, the loop of `ToSnakeCase` finds no lower case letter followed by an
upper case letter: it lowers every character and inserts no underscore. -/
theorem snakeLoop_titleLoop (U : UnicodeTables) (w : GoString) (m : Bool)
    (hw : ∀ c ∈ w, isASCII c = true) :
    snakeLoop U (titleLoop w m) = w.map asciiToLower := by
  induction w generalizing m with
  | nil => rfl
  | cons c cs ih =>
    have hc : isASCII c = true := hw c (List.mem_cons_self _ _)
    have hcs : ∀ d ∈ cs, isASCII d = true := fun d hd => hw d (List.mem_cons_of_mem _ hd)
    simp only [titleLoop, List.map_cons]
    cases hl : isAsciiLetter c
    · have hlow : isAsciiLower c = false := by
        simp only [isAsciiLetter, Bool.or_eq_false_iff] at hl
        exact hl.2
      simp only [Bool.false_eq_true, if_false]
      rw [snakeLoop_cons, ih m hcs]
      have h1 : IsLower U c = false := by simp [IsLower, hc, hlow]
      have h2 : ToLower U c = asciiToLower c := by simp [ToLower, hc]
      simp only [h1, Bool.and_false, h2]
      cases (titleLoop cs m).head? <;> simp
    · have hf := ascii_letter_facts c hl
      simp only [if_true]
      rw [snakeLoop_cons, ih true hcs]
      have hx : ToLower U (if m = true then asciiToLower c else asciiToUpper c) =
          asciiToLower c := by
        cases m
        · simp [ToLower, isASCII_asciiToUpper c hl, hf.2.2.2.2.2.2]
        · simp [ToLower, isASCII_asciiToLower c hl, hf.2.2.2.2.2.1]
      rw [hx]
      congr 1
      cases hh : (titleLoop cs true).head? with
      | none => simp
      | some y =>
        have hy := titleLoop_true_head cs y hh
        have hya : isASCII y = true := by
          rcases titleLoop_mem cs true y (List.mem_of_mem_head? hh) with h1 | h1
          · exact hcs y h1
          · exact isASCII_of_letter h1
        simp [IsUpper, hya, hy]

/-- On a string of ASCII letters and digits, `ToSnakeCase` only lowers the characters: its
call of `ToCamelCase` leaves one capital at most, the first letter. -/
theorem ToSnakeCase_single_run (U : UnicodeTables) (r : GoString)
    (h : ∀ c ∈ r, isASCII c = true ∧ rxCameling U c = true) :
    ToSnakeCase U r = r.map asciiToLower := by
  rw [ToSnakeCase, ToCamelCase_single_run U r h]
  exact snakeLoop_titleLoop U r false (fun c hc => (h c hc).1)

theorem map_asciiToLower_titleLoop (w : GoString) (m : Bool) :
    (titleLoop w m).map asciiToLower = w.map asciiToLower := by
  induction w generalizing m with
  | nil => rfl
  | cons c cs ih =>
    simp only [titleLoop, List.map_cons]
    cases hl : isAsciiLetter c
    · simp [ih]
    · have hf := ascii_letter_facts c hl
      cases m <;> simp [ih, hf.2.2.2.2.2.1, hf.2.2.2.2.2.2]

theorem asciiToLower_of_lower {c : Char} (h : isAsciiLower c = true) : asciiToLower c = c := by
  have hu : isAsciiUpper c = false := by
    rw [isAsciiLower_iff] at h
    cases hup : isAsciiUpper c
    · rfl
    · rw [isAsciiUpper_iff] at hup
      omega
  simp [asciiToLower, hu]

/-- C7 (the code at the failing inputs): `ToSnakeCase("UserId")` is `"userid"` and
`ToSnakeCase("HelloWorld42")` is `"helloworld42"`, because `ToSnakeCase` first calls
`ToCamelCase`, whose title caser turns `"UserId"` into `"Userid"`; on every input of ASCII
letters and digits only `ToSnakeCase` just lowers the characters and inserts no underscore.
The scan itself, run on the camel form, gives what the claim says: `"user_id"` and
`"hello_world42"`. -/
theorem snake_case_of_camel_input (U : UnicodeTables) :
    ToSnakeCase U "UserId".toList = "userid".toList ∧
    ToSnakeCase U "HelloWorld42".toList = "helloworld42".toList ∧
    ToCamelCase U "UserId".toList = "Userid".toList ∧
    (∀ s : GoString, (∀ c ∈ s, isAsciiLetter c = true ∨ isAsciiDigit c = true) →
      ToSnakeCase U s = s.map asciiToLower) ∧
    snakeLoop U "UserId".toList = "user_id".toList ∧
    snakeLoop U "HelloWorld42".toList = "hello_world42".toList := by
  refine ⟨rfl, rfl, rfl, ?_, rfl, rfl⟩
  intro s hs
  apply ToSnakeCase_single_run
  intro c hc
  rcases hs c hc with h | h
  · exact ⟨isASCII_of_letter h, rxCameling_of_letter U h⟩
  · have ha := isASCII_of_digit h
    exact ⟨ha, by rw [rxCameling_ascii U ha, h, Bool.or_true]⟩

/-- C8 (as stated, refuted): `ToCamelCase("a_b_c")` is `"ABC"` and
`ToSnakeCase(ToCamelCase("a_b_c"))` is `"abc"`, not `"a_b_c"`, whatever the Unicode tables
are. -/
theorem snake_of_camel_drops_underscores :
    (¬ ∃ U : UnicodeTables,
      ToSnakeCase U (ToCamelCase U "a_b_c".toList) = "a_b_c".toList) ∧
    (∀ U : UnicodeTables, ToCamelCase U "a_b_c".toList = "ABC".toList ∧
      ToSnakeCase U (ToCamelCase U "a_b_c".toList) = "abc".toList) := by
  have hval : ∀ U : UnicodeTables, ToCamelCase U "a_b_c".toList = "ABC".toList ∧
      ToSnakeCase U (ToCamelCase U "a_b_c".toList) = "abc".toList :=
    fun U => ⟨rfl, rfl⟩
  refine ⟨?_, hval⟩
  rintro ⟨U, h⟩
  rw [(hval U).2] at h
  exact absurd h (by decide)

/-- C8 (amended): for every input `s` that is a single word of lowercase ASCII letters (no
underscore), `ToSnakeCase(ToCamelCase(s)) = s`. -/
theorem snake_of_camel_single_word (U : UnicodeTables) (s : GoString)
    (hs : ∀ c ∈ s, isAsciiLower c = true) :
    ToSnakeCase U (ToCamelCase U s) = s := by
  have hletter : ∀ c ∈ s, isAsciiLetter c = true := by
    intro c hc
    simp [isAsciiLetter, hs c hc]
  have hrun : ∀ c ∈ s, isASCII c = true ∧ rxCameling U c = true :=
    fun c hc => ⟨isASCII_of_letter (hletter c hc), rxCameling_of_letter U (hletter c hc)⟩
  have hascii : ∀ c ∈ s, rxCameling U c = true → isASCII c = true :=
    fun c hc _ => (hrun c hc).1
  rw [ToSnakeCase_single_run U _ (ToCamelCase_ascii_chars U s hascii),
    ToCamelCase_single_run U s hrun, map_asciiToLower_titleLoop]
  calc s.map asciiToLower = s.map id :=
        List.map_congr_left (fun c hc => asciiToLower_of_lower (hs c hc))
    _ = s := List.map_id s

/-- The statement of C8 (amended) at the input `"hello"`, with tables that classify no code
point outside ASCII. -/
theorem snake_of_camel_single_word_witness :
    ToSnakeCase asciiOnly (ToCamelCase asciiOnly "hello".toList) = "hello".toList :=
  snake_of_camel_single_word asciiOnly "hello".toList (by decide)


/-! ## `OnlyNumeric` keeps spaces; `OnlyChinese` -/

/-- C11 (the code at the failing input): `OnlyNumeric("1 2")` is `"1 2"`: the space is kept,
and it is not an ASCII digit, although the comment of `OnlyNumeric` says that every character
other than digits is removed. -/
theorem only_numeric_keeps_space :
    OnlyNumeric "1 2".toList = "1 2".toList ∧
    ¬ ∀ c ∈ OnlyNumeric "1 2".toList, isAsciiDigit c = true := by
  decide

/-- What the pattern `[^0-9 ]+` leaves: every character of `OnlyNumeric(s)` is an ASCII digit
or a space. -/
theorem only_numeric_digits_or_space (s : GoString) :
    (OnlyNumeric s).all (fun c => isAsciiDigit c || c == ' ') = true ∧
    (∀ c ∈ OnlyNumeric s, isAsciiDigit c = true ∨ c = ' ') := by
  have h : ∀ c ∈ OnlyNumeric s, isAsciiDigit c = true ∨ c = ' ' := by
    intro c hc
    unfold OnlyNumeric at hc
    rw [replaceAllPlus_nil, List.mem_filter] at hc
    simpa [nonNumericRegex] using hc.2
  refine ⟨?_, h⟩
  rw [List.all_eq_true]
  intro c hc
  simpa using h c hc

/-- C12: `OnlyChinese(s)` is exactly the subsequence of the code points of `s` that are in
the script `Han`, in their original order: it is `s` filtered by the class `\p{Han}`.  Every
other code point is removed, so the result holds no ASCII character (letter, digit, space or
punctuation).  In particular `OnlyChinese("abc中文123") = "中文"`. -/
theorem only_chinese_is_filter (U : UnicodeTables) (s : GoString) :
    OnlyChinese U s = s.filter (inHan U) ∧
    (OnlyChinese U s).Sublist s ∧
    (∀ c, c ∈ OnlyChinese U s ↔ c ∈ s ∧ inHan U c = true) ∧
    (∀ c ∈ OnlyChinese U s, isASCII c = false) ∧
    OnlyChinese U "abc中文123".toList = "中文".toList := by
  have h1 : OnlyChinese U s = s.filter (inHan U) := by
    unfold OnlyChinese
    rw [replaceAllPlus_nil]
    congr 1
    funext c
    simp [nonChineseRegex]
  refine ⟨h1, ?_, ?_, ?_, rfl⟩
  · rw [h1]
    exact List.filter_sublist _
  · intro c
    rw [h1, List.mem_filter]
  · intro c hc
    rw [h1, List.mem_filter] at hc
    cases ha : isASCII c
    · rfl
    · have := hc.2
      simp [inHan, ha] at this


/-! ## `CleanString` -/

theorem stringsMap_filter (p : Char → Bool) (s : GoString) :
    stringsMap (fun r => if p r then some r else none) s = s.filter p := by
  induction s with
  | nil => rfl
  | cons c cs ih =>
    simp only [stringsMap, List.filter_cons]
    cases h : p c <;> simp [ih]

theorem TrimLeftFunc_split (f : Char → Bool) (s : GoString) :
    s = s.takeWhile f ++ TrimLeftFunc f s ∧
    (∀ c ∈ s.takeWhile f, f c = true) ∧
    (∀ c, (TrimLeftFunc f s).head? = some c → f c = false) := by
  refine ⟨(List.takeWhile_append_dropWhile f s).symm, fun c hc => List.mem_takeWhile_imp hc, ?_⟩
  intro c hc
  unfold TrimLeftFunc at hc
  induction s with
  | nil => simp at hc
  | cons a rest ih =>
    rw [List.dropWhile_cons] at hc
    cases ha : f a
    · simp only [ha, Bool.false_eq_true, if_false, List.head?_cons, Option.some.injEq] at hc
      rw [← hc]
      exact ha
    · simp only [ha, if_true] at hc
      exact ih hc

theorem TrimRightFunc_split (f : Char → Bool) (t : GoString) :
    t = TrimRightFunc f t ++ (t.reverse.takeWhile f).reverse ∧
    (∀ c ∈ (t.reverse.takeWhile f).reverse, f c = true) ∧
    (∀ c, (TrimRightFunc f t).getLast? = some c → f c = false) := by
  refine ⟨?_, ?_, ?_⟩
  · unfold TrimRightFunc
    rw [← List.reverse_append, List.takeWhile_append_dropWhile, List.reverse_reverse]
  · intro c hc
    exact List.mem_takeWhile_imp (List.mem_reverse.1 hc)
  · intro c hc
    unfold TrimRightFunc at hc
    rw [List.getLast?_reverse] at hc
    exact (TrimLeftFunc_split f t.reverse).2.2 c hc

/-- The text `strings.TrimSpace` returns is `s` without a leading and a trailing piece of
white space, and it neither begins nor ends with white space. -/
theorem TrimSpace_spec (U : UnicodeTables) (s : GoString) :
    ∃ pre post : GoString, s = pre ++ TrimSpace U s ++ post ∧
      (∀ c ∈ pre, IsSpace U c = true) ∧ (∀ c ∈ post, IsSpace U c = true) ∧
      (∀ c, (TrimSpace U s).head? = some c → IsSpace U c = false) ∧
      (∀ c, (TrimSpace U s).getLast? = some c → IsSpace U c = false) := by
  obtain ⟨hl1, hl2, hl3⟩ := TrimLeftFunc_split (IsSpace U) s
  obtain ⟨hr1, hr2, hr3⟩ := TrimRightFunc_split (IsSpace U) (TrimLeftFunc (IsSpace U) s)
  refine ⟨s.takeWhile (IsSpace U),
    ((TrimLeftFunc (IsSpace U) s).reverse.takeWhile (IsSpace U)).reverse, ?_, hl2, hr2, ?_, hr3⟩
  · unfold TrimSpace
    rw [List.append_assoc, ← hr1, ← hl1]
  · intro c hc
    apply hl3 c
    unfold TrimSpace at hc
    rw [hr1]
    cases hT : TrimRightFunc (IsSpace U) (TrimLeftFunc (IsSpace U) s) with
    | nil => rw [hT] at hc; simp at hc
    | cons a rest =>
      rw [hT] at hc
      simpa using hc

theorem CleanString_eq (U : UnicodeTables) (s : GoString) (args : List Bool) :
    CleanString U s args =
      (if args.head? = some true then (TrimSpace U s).map (ToLower U)
        else TrimSpace U s).filter (IsGraphic U) := by
  unfold CleanString removeInvisibleCharacter stringsToLower
  rw [stringsMap_filter]
  cases args with
  | nil => simp
  | cons a rest => cases a <;> simp

/-- C13: `CleanString(s, lowercase)` is: the input without its leading and trailing white
space, then lower-cased if and only if the flag is given and true (an omitted flag behaves as
`false` and leaves the case unchanged), then without every code point that is not graphic.
Hence the result never contains a non-graphic code point.  In particular
`CleanString("  Hello\u0007World  ", true) = "helloworld"`. -/
theorem clean_string_steps (U : UnicodeTables) (s : GoString) (args : List Bool) :
    CleanString U s args =
      (if args.head? = some true then (TrimSpace U s).map (ToLower U)
        else TrimSpace U s).filter (IsGraphic U) ∧
    (∃ pre post : GoString, s = pre ++ TrimSpace U s ++ post ∧
      (∀ c ∈ pre, IsSpace U c = true) ∧ (∀ c ∈ post, IsSpace U c = true) ∧
      (∀ c, (TrimSpace U s).head? = some c → IsSpace U c = false) ∧
      (∀ c, (TrimSpace U s).getLast? = some c → IsSpace U c = false)) ∧
    CleanString U s [] = (TrimSpace U s).filter (IsGraphic U) ∧
    CleanString U s [] = CleanString U s [false] ∧
    CleanString U s [true] = ((TrimSpace U s).map (ToLower U)).filter (IsGraphic U) ∧
    (∀ c ∈ CleanString U s args, IsGraphic U c = true) ∧
    CleanString U "  Hello\x07World  ".toList [true] = "helloworld".toList := by
  refine ⟨CleanString_eq U s args, TrimSpace_spec U s, ?_, ?_, ?_, ?_, rfl⟩
  · rw [CleanString_eq]
    simp
  · rw [CleanString_eq, CleanString_eq]
    simp
  · rw [CleanString_eq]
    simp
  · intro c hc
    rw [CleanString_eq, List.mem_filter] at hc
    exact hc.2


theorem IsSpace_ascii (U : UnicodeTables) {c : Char} (h : isASCII c = true) :
    IsSpace U c = IsSpace asciiOnly c := by
  have hlt : c.toNat < 128 := by simpa [isASCII] using h
  have hle : c.toNat ≤ 0xFF := by omega
  simp [IsSpace, hle]

theorem IsGraphic_ascii (U : UnicodeTables) {c : Char} (h : isASCII c = true) :
    IsGraphic U c = IsGraphic asciiOnly c := by
  simp [IsGraphic, h]

set_option maxRecDepth 100000 in
theorem ascii_lower_graphic_table : ∀ n < 128,
    IsGraphic asciiOnly (Char.ofNat n) = true → IsSpace asciiOnly (Char.ofNat n) = false →
    isASCII (asciiToLower (Char.ofNat n)) = true ∧
    IsGraphic asciiOnly (asciiToLower (Char.ofNat n)) = true ∧
    IsSpace asciiOnly (asciiToLower (Char.ofNat n)) = false := by
  decide

/-- Lowering a graphic ASCII character that is not white space gives a graphic character that
is not white space. -/
theorem ToLower_graphic_ascii (U : UnicodeTables) (c : Char) (ha : isASCII c = true)
    (hg : IsGraphic U c = true) (hs : IsSpace U c = false) :
    IsGraphic U (ToLower U c) = true ∧ IsSpace U (ToLower U c) = false := by
  rw [IsGraphic_ascii U ha] at hg
  rw [IsSpace_ascii U ha] at hs
  have h := ascii_cases
    (fun d => IsGraphic asciiOnly d = true → IsSpace asciiOnly d = false →
      isASCII (asciiToLower d) = true ∧ IsGraphic asciiOnly (asciiToLower d) = true ∧
      IsSpace asciiOnly (asciiToLower d) = false)
    ascii_lower_graphic_table c ha hg hs
  have hl : ToLower U c = asciiToLower c := by simp [ToLower, ha]
  rw [hl, IsGraphic_ascii U h.1, IsSpace_ascii U h.1]
  exact h.2

theorem filter_head?_of_head? (g : Char → Bool) (t : GoString) (a : Char)
    (h : t.head? = some a) (hg : g a = true) : (t.filter g).head? = some a := by
  cases t with
  | nil => simp at h
  | cons b rest =>
    simp only [List.head?_cons, Option.some.injEq] at h
    subst h
    simp [List.filter_cons, hg]

theorem filter_getLast?_of_getLast? (g : Char → Bool) (t : GoString) (a : Char)
    (h : t.getLast? = some a) (hg : g a = true) : (t.filter g).getLast? = some a := by
  have h1 : t.reverse.head? = some a := by rw [List.head?_reverse]; exact h
  have h2 := filter_head?_of_head? g t.reverse a h1 hg
  rw [List.filter_reverse, List.head?_reverse] at h2
  exact h2

/-- C14 (as stated, refuted): a control character at an end of the input stops the trimming
and is removed afterwards, which exposes the white space next to it:
`CleanString("\u0007 a") = " a"` begins with a space and `CleanString("a \u0007") = "a "`
ends with one, whatever the Unicode tables are. -/
theorem clean_string_exposes_space :
    (∀ U : UnicodeTables, CleanString U "\x07 a".toList [] = " a".toList ∧
      CleanString U "a \x07".toList [] = "a ".toList ∧ IsSpace U ' ' = true) ∧
    (¬ ∃ U : UnicodeTables,
      ∀ c, (CleanString U "\x07 a".toList []).head? = some c → IsSpace U c = false) ∧
    (¬ ∃ U : UnicodeTables,
      ∀ c, (CleanString U "a \x07".toList []).getLast? = some c → IsSpace U c = false) := by
  have hval : ∀ U : UnicodeTables, CleanString U "\x07 a".toList [] = " a".toList ∧
      CleanString U "a \x07".toList [] = "a ".toList ∧ IsSpace U ' ' = true :=
    fun U => ⟨rfl, rfl, rfl⟩
  refine ⟨hval, ?_, ?_⟩
  · rintro ⟨U, h⟩
    have := h ' ' (by rw [(hval U).1]; rfl)
    rw [(hval U).2.2] at this
    exact absurd this (by decide)
  · rintro ⟨U, h⟩
    have := h ' ' (by rw [(hval U).2.1]; rfl)
    rw [(hval U).2.2] at this
    exact absurd this (by decide)

/-- C14 (amended): when the first and the last code point of the trimmed input are graphic
(and ASCII, if the lower-case flag is given and true), the result of `CleanString` neither
begins nor ends with a white space character.  The code points in between are not
restricted. -/
theorem clean_string_ends_not_space (U : UnicodeTables) (s : GoString) (args : List Bool)
    (h : ∀ c, ((TrimSpace U s).head? = some c ∨ (TrimSpace U s).getLast? = some c) →
      IsGraphic U c = true ∧ (args.head? = some true → isASCII c = true)) :
    (∀ c, (CleanString U s args).head? = some c → IsSpace U c = false) ∧
    (∀ c, (CleanString U s args).getLast? = some c → IsSpace U c = false) := by
  obtain ⟨pre, post, -, -, -, hhead, hlast⟩ := TrimSpace_spec U s
  rw [CleanString_eq]
  by_cases hlow : args.head? = some true
  · simp only [hlow, if_true]
    constructor
    · intro c hc
      cases ht : (TrimSpace U s).head? with
      | none =>
        have : TrimSpace U s = [] := List.head?_eq_none_iff.1 ht
        rw [this] at hc
        simp at hc
      | some a =>
        obtain ⟨hg, hasc⟩ := h a (Or.inl ht)
        have hf := ToLower_graphic_ascii U a (hasc hlow) hg (hhead a ht)
        have hh : ((TrimSpace U s).map (ToLower U)).head? = some (ToLower U a) := by
          rw [List.head?_map, ht]
          rfl
        rw [filter_head?_of_head? _ _ _ hh hf.1, Option.some.injEq] at hc
        rw [← hc]
        exact hf.2
    · intro c hc
      cases ht : (TrimSpace U s).getLast? with
      | none =>
        have : TrimSpace U s = [] := List.getLast?_eq_none_iff.1 ht
        rw [this] at hc
        simp at hc
      | some a =>
        obtain ⟨hg, hasc⟩ := h a (Or.inr ht)
        have hf := ToLower_graphic_ascii U a (hasc hlow) hg (hlast a ht)
        have hh : ((TrimSpace U s).map (ToLower U)).getLast? = some (ToLower U a) := by
          rw [List.getLast?_map, ht]
          rfl
        rw [filter_getLast?_of_getLast? _ _ _ hh hf.1, Option.some.injEq] at hc
        rw [← hc]
        exact hf.2
  · simp only [hlow, if_false]
    constructor
    · intro c hc
      cases ht : (TrimSpace U s).head? with
      | none =>
        have : TrimSpace U s = [] := List.head?_eq_none_iff.1 ht
        rw [this] at hc
        simp at hc
      | some a =>
        obtain ⟨hg, -⟩ := h a (Or.inl ht)
        rw [filter_head?_of_head? _ _ _ ht hg, Option.some.injEq] at hc
        rw [← hc]
        exact hhead a ht
    · intro c hc
      cases ht : (TrimSpace U s).getLast? with
      | none =>
        have : TrimSpace U s = [] := List.getLast?_eq_none_iff.1 ht
        rw [this] at hc
        simp at hc
      | some a =>
        obtain ⟨hg, -⟩ := h a (Or.inr ht)
        rw [filter_getLast?_of_getLast? _ _ _ ht hg, Option.some.injEq] at hc
        rw [← hc]
        exact hlast a ht

/-- The statement of C14 (amended) at the input `"  Hello\u0007World  "` with the lower-case
flag, with tables that classify no code point outside ASCII: the trimmed input begins with
`H` and ends with `d`, and a control character stands in between. -/
theorem clean_string_ends_not_space_witness :
    (∀ c, (CleanString asciiOnly "  Hello\x07World  ".toList [true]).head? = some c →
      IsSpace asciiOnly c = false) ∧
    (∀ c, (CleanString asciiOnly "  Hello\x07World  ".toList [true]).getLast? = some c →
      IsSpace asciiOnly c = false) := by
  have e1 : (TrimSpace asciiOnly "  Hello\x07World  ".toList).head? = some 'H' := by decide
  have e2 : (TrimSpace asciiOnly "  Hello\x07World  ".toList).getLast? = some 'd' := by decide
  apply clean_string_ends_not_space asciiOnly "  Hello\x07World  ".toList [true]
  intro c hc
  rcases hc with hc | hc
  · rw [e1, Option.some.injEq] at hc
    rw [← hc]
    decide
  · rw [e2, Option.some.injEq] at hc
    rw [← hc]
    decide

/-! ## `ToString`, `ToBytes` and `ToSlice` -/

/-- C15: for every string `s`, `ToString(s)` returns `s` verbatim with no error and
`ToBytes(s)` returns exactly the bytes of `s` with no error; for every byte sequence `b`,
valid UTF-8 or not, `ToBytes(b)` returns `b` unchanged and `ToString(b)` returns the text
with exactly the bytes of `b`, with no error.  In neither case is `json.Marshal` consulted:
the result is the same whatever it would return, so no quotes or escapes are added. -/
theorem to_string_of_text {α ε : Type} (marshal : α → ByteSeq × Option ε) (s b : ByteSeq) :
    ToString marshal (AnyValue.string s) = (s, none) ∧
    (ToBytes marshal (AnyValue.string s)).1 = s ∧
    (ToBytes marshal (AnyValue.string s)).2 = none ∧
    (ToBytes marshal (AnyValue.bytes b)).1 = b ∧
    (ToBytes marshal (AnyValue.bytes b)).2 = none ∧
    ToString marshal (AnyValue.bytes b) = (b, none) ∧
    (∀ marshal2 : α → ByteSeq × Option ε,
      ToString marshal2 (AnyValue.string s) = ToString marshal (AnyValue.string s) ∧
      ToString marshal2 (AnyValue.bytes b) = ToString marshal (AnyValue.bytes b) ∧
      (ToBytes marshal2 (AnyValue.string s)).1 = (ToBytes marshal (AnyValue.string s)).1 ∧
      (ToBytes marshal2 (AnyValue.bytes b)).1 = (ToBytes marshal (AnyValue.bytes b)).1) ∧
    ToString marshal (AnyValue.bytes [0xff, 0x22, 0x5c]) = ([0xff, 0x22, 0x5c], none) :=
  ⟨rfl, rfl, rfl, rfl, rfl, rfl, fun _ => ⟨rfl, rfl, rfl, rfl⟩, rfl⟩

/-- C16: `ToBytes` mirrors `ToString`.  For every value `v`, `ToBytes(v)` returns an error if
and only if `ToString(v)` does, which happens exactly when `v` is neither a string nor a byte
sequence and `json.Marshal` fails on it; the error of `ToBytes` wraps that of `ToString`.  On
error `ToString` returns the empty string and `ToBytes` the empty (nil) byte sequence; on
success the bytes of `ToString(v)` are `ToBytes(v)`. -/
theorem to_bytes_mirrors_to_string {α ε : Type} (marshal : α → ByteSeq × Option ε)
    (value : AnyValue α) :
    ((ToBytes marshal value).2.isSome = (ToString marshal value).2.isSome) ∧
    ((ToString marshal value).2.isSome = true ↔
      ∃ v, value = AnyValue.other v ∧ (marshal v).2.isSome = true) ∧
    (∀ e, (ToBytes marshal value).2 = some e → (ToString marshal value).2 = some e.cause) ∧
    ((ToString marshal value).2.isSome = true →
      (ToString marshal value).1 = [] ∧ (ToBytes marshal value).1 = []) ∧
    ((ToString marshal value).2 = none →
      (ToString marshal value).1 = (ToBytes marshal value).1) := by
  cases value with
  | string s => simp [ToString, ToBytes, StringToBytes]
  | bytes b => simp [ToString, ToBytes, BytesToString]
  | other v =>
    rcases hm : marshal v with ⟨bs, _ | err⟩
    · simp [ToString, ToBytes, BytesToString, hm]
    · simp [ToString, ToBytes, hm]

/-- C17 (as stated, refuted): an array is sequence-shaped but its kind is `reflect.Array`, not
`reflect.Slice`, so `ToSlice([3]int{1,2,3})` is the empty (nil) result and not `[1,2,3]`. -/
theorem to_slice_of_array :
    ToSlice (⟨Kind.Array, [1, 2, 3]⟩ : ReflectValue Int) = [] ∧
    (ToSlice (⟨Kind.Array, [1, 2, 3]⟩ : ReflectValue Int)).length ≠
      (⟨Kind.Array, [1, 2, 3]⟩ : ReflectValue Int).Len := by
  decide

/-- C17 (amended): for every input value that is a slice, `ToSlice` returns a new sequence of
the same length whose `i`-th element is the `i`-th element of the input, boxed, in order; e.g.
`ToSlice([]int{1,2,3}) = [1,2,3]`.  For every input whose kind is not `reflect.Slice` (an
array included), e.g. `ToSlice(42)`, it returns the empty (nil) result; the function has no
error result. -/
theorem to_slice_of_slice {β : Type} (data : ReflectValue β) :
    (data.kind = Kind.Slice → ToSlice data = data.elems ∧
      (ToSlice data).length = data.Len ∧
      ∀ i : Nat, (ToSlice data)[i]? = data.elems[i]?) ∧
    (data.kind ≠ Kind.Slice → ToSlice data = []) ∧
    ToSlice (⟨Kind.Slice, [1, 2, 3]⟩ : ReflectValue Int) = [1, 2, 3] ∧
    ToSlice (⟨Kind.Int, []⟩ : ReflectValue Int) = [] := by
  refine ⟨?_, ?_, by decide, by decide⟩
  · intro hk
    have h : ToSlice data = data.elems := by
      simp only [ToSlice, hk, ne_eq, not_true_eq_false, if_false, ReflectValue.Len]
      exact List.ofFn_get data.elems
    exact ⟨h, by rw [h]; rfl, fun i => by rw [h]⟩
  · intro hk
    simp [ToSlice, hk]


/-! ## The three integer widths -/

theorem ParseInt_range (s : GoString) (v : Int) (h : ParseInt s 0 0 = (v, none)) :
    inInt64 v := by
  cases s with
  | nil => simp [ParseInt] at h
  | cons c cs =>
    have n63 : (2 : Nat) ^ (IntSize - 1) = 9223372036854775808 := by decide
    have e63 : (2 : Int) ^ 63 = 9223372036854775808 := by norm_num
    unfold inInt64
    rw [e63]
    simp only [ParseInt] at h
    split at h
    · simp at h
    · simp at h
    · simp at h
    · rename_i un e _ _ _
      simp only [n63, if_true] at h
      split_ifs at h with h1 h2 h3
      · simp at h
      · simp at h
      · simp only [Prod.mk.injEq, and_true] at h
        simp only [h3, true_and, gt_iff_lt, not_lt] at h2
        omega
      · simp only [Prod.mk.injEq, and_true] at h
        have hf : decide (c = '-') = false := by simpa using h3
        simp only [hf, true_and, ge_iff_le, not_le] at h1
        omega

theorem wrapInt_of_inInt32 (v : Int) (h : inInt32 v) : wrapInt 32 v = v := by
  unfold inInt32 at h
  unfold wrapInt
  norm_num at h ⊢
  split_ifs <;> omega

theorem wrapInt_of_inInt64 (v : Int) (h : inInt64 v) : wrapInt IntSize v = v := by
  unfold inInt64 at h
  unfold wrapInt IntSize
  norm_num at h ⊢
  split_ifs <;> omega

/-- The conversion `int32(v)` gives the one value of the `int32` range that differs from `v`
by a multiple of `2^32`. -/
theorem wrapInt_32_spec (v : Int) :
    inInt32 (wrapInt 32 v) ∧ (2 ^ 32 : Int) ∣ (wrapInt 32 v - v) := by
  unfold inInt32 wrapInt
  norm_num
  split_ifs <;> constructor <;> omega

theorem castToInt32_eq_wrap (t : GoString) : castToInt32 t = wrapInt 32 (castToInt64 t) := by
  unfold castToInt32 castToInt64
  rcases ParseInt (trimDecimal t) 0 0 with ⟨v, _ | e⟩
  · rfl
  · simp only
    decide

theorem castToInt_eq (t : GoString) : castToInt t = castToInt64 t := by
  unfold castToInt castToInt64
  rcases h : ParseInt (trimDecimal t) 0 0 with ⟨v, _ | e⟩
  · exact wrapInt_of_inInt64 v (ParseInt_range _ v h)
  · rfl


theorem CsvToInt32s_eq_wrap (s : GoString) :
    CsvToInt32s s = (CsvToInt64s s).map (wrapInt 32) := by
  have hmap : ∀ l : List GoString, l.map castToInt32 = (l.map castToInt64).map (wrapInt 32) := by
    intro l
    rw [List.map_map]
    apply List.map_congr_left
    intro t _
    exact castToInt32_eq_wrap t
  simp only [CsvToInt32s, CsvToInt64s, ToInt32s, ToInt64s]
  split_ifs
  · rfl
  · rfl
  · exact hmap _

/-- C18 (as stated, refuted): the tokens `09999999999` and `040000000000` are decimal integers
inside the `int64` range and outside the `int32` range, with wrapped values 1410065407 and
1345294336, but `CsvToInt32s` gives 0 for both: the leading zero selects base 8, in which
the first is not a number and the second is `2^32`. -/
theorem csv_int32_leading_zero :
    (isBase10 "09999999999".toList = true ∧ inInt64 (base10Value "09999999999".toList) ∧
      ¬ inInt32 (base10Value "09999999999".toList) ∧
      wrapInt 32 (base10Value "09999999999".toList) = 1410065407 ∧
      CsvToInt32s "09999999999".toList = [0] ∧
      CsvToInt32s "09999999999".toList ≠ [wrapInt 32 (base10Value "09999999999".toList)]) ∧
    (isBase10 "040000000000".toList = true ∧ inInt64 (base10Value "040000000000".toList) ∧
      ¬ inInt32 (base10Value "040000000000".toList) ∧
      wrapInt 32 (base10Value "040000000000".toList) = 1345294336 ∧
      CsvToInt64s "040000000000".toList = [4294967296] ∧
      CsvToInt32s "040000000000".toList = [0] ∧
      CsvToInt32s "040000000000".toList ≠ [wrapInt 32 (base10Value "040000000000".toList)]) := by
  decide

/-- C18 (amended): for every list of tokens, `ToInt32s(tokens)` is `ToInt64s(tokens)` with
every element reduced to 32 bits (the value of the `int32` range that differs from it by a
multiple of `2^32`), index by index, and `CsvToInt32s` relates to `CsvToInt64s` in the same
way.  A token that is a decimal integer inside the `int64` range written without a leading
zero yields its wrapped value, and the three widths agree on every token whose `int64` value
fits in `int32`. -/
theorem int32_is_wrapped_int64 (tokens : List GoString) :
    ToInt32s tokens = (ToInt64s tokens).map (wrapInt 32) ∧
    (∀ i : Nat, (ToInt32s tokens)[i]? = ((ToInt64s tokens)[i]?).map (wrapInt 32)) ∧
    (∀ v : Int, inInt32 (wrapInt 32 v) ∧ (2 ^ 32 : Int) ∣ (wrapInt 32 v - v)) ∧
    (∀ s : GoString, CsvToInt32s s = (CsvToInt64s s).map (wrapInt 32)) ∧
    (∀ t : GoString, isBase10 t = true → noLeadingZero (tokenDigits t) = true →
      inInt64 (base10Value t) →
      castToInt64 t = base10Value t ∧ castToInt32 t = wrapInt 32 (base10Value t)) ∧
    (∀ t : GoString, inInt32 (castToInt64 t) →
      castToInt32 t = castToInt64 t ∧ castToInt t = castToInt64 t) ∧
    CsvToInt32s "2147483648,4294967297,-2147483649,7".toList =
      [-2147483648, 1, 2147483647, 7] ∧
    CsvToInt64s "2147483648,4294967297,-2147483649,7".toList =
      [2147483648, 4294967297, -2147483649, 7] ∧
    CsvToInts "2147483648,4294967297,-2147483649,7".toList =
      [2147483648, 4294967297, -2147483649, 7] := by
  have h32 : ToInt32s tokens = (ToInt64s tokens).map (wrapInt 32) := by
    unfold ToInt32s ToInt64s
    rw [List.map_map]
    apply List.map_congr_left
    intro t _
    exact castToInt32_eq_wrap t
  refine ⟨h32, ?_, wrapInt_32_spec, CsvToInt32s_eq_wrap, ?_, ?_, by decide, by decide,
    by decide⟩
  · intro i
    rw [h32, List.getElem?_map]
  · intro t hb hz hr
    have h64 := castToInt64_base10 t hb hz hr
    exact ⟨h64, by rw [castToInt32_eq_wrap, h64]⟩
  · intro t ht
    exact ⟨by rw [castToInt32_eq_wrap, wrapInt_of_inInt32 _ ht], castToInt_eq t⟩


/-! ## Parsing undoes joining -/

theorem Split_no_sep (sep : Char) (a : GoString) (h : sep ∉ a) : Split sep a = [a] := by
  induction a with
  | nil => rfl
  | cons c cs ih =>
    have hc : c ≠ sep := fun e => h (e ▸ List.mem_cons_self _ _)
    have hcs : sep ∉ cs := fun e => h (List.mem_cons_of_mem _ e)
    simp [Split, hc, ih hcs]

theorem Split_append_sep (sep : Char) (a b : GoString) (h : sep ∉ a) :
    Split sep (a ++ sep :: b) = a :: Split sep b := by
  induction a with
  | nil => simp [Split]
  | cons c cs ih =>
    have hc : c ≠ sep := fun e => h (e ▸ List.mem_cons_self _ _)
    have hcs : sep ∉ cs := fun e => h (List.mem_cons_of_mem _ e)
    simp [Split, hc, ih hcs]

/-- Splitting the join of a non-empty list of pieces without separator gives the pieces. -/
theorem Split_Join (sep : Char) (l : List GoString) (hne : l ≠ []) (h : ∀ t ∈ l, sep ∉ t) :
    Split sep (Join [sep] l) = l := by
  induction l with
  | nil => exact absurd rfl hne
  | cons a rest ih =>
    have ha : sep ∉ a := h a (List.mem_cons_self _ _)
    cases rest with
    | nil => simpa [Join] using Split_no_sep sep a ha
    | cons b more =>
      rw [Join_cons_cons, List.append_assoc, List.singleton_append, Split_append_sep sep _ _ ha,
        ih (List.cons_ne_nil _ _) (fun t ht => h t (List.mem_cons_of_mem _ ht))]

theorem digitChar_eq_zero : ∀ d < 10, Char.ofNat (48 + d) = '0' → d = 0 := by
  decide

theorem formatDigits_head (fuel u : Nat) (h : u < fuel) (hu : u ≠ 0) :
    (formatDigits fuel u []).head? ≠ some '0' := by
  induction fuel generalizing u with
  | zero => omega
  | succ k ih =>
    rw [formatDigits_succ]
    split_ifs with hlt
    · intro e
      simp only [List.head?_cons, Option.some.injEq] at e
      exact hu (digitChar_eq_zero u hlt e)
    · have hrec := ih (u / 10) (by omega) (by omega)
      have hne : formatDigits k (u / 10) [] ≠ [] := by
        cases k with
        | zero => omega
        | succ j => exact formatDigits_ne_nil j (u / 10)
      rw [List.head?_append_of_ne_nil _ hne]
      exact hrec

/-- The rendering of an integer is a base-10 token without a leading zero that denotes the
integer. -/
theorem FormatInt_token (x : Int) :
    isBase10 (FormatInt x) = true ∧ noLeadingZero (tokenDigits (FormatInt x)) = true ∧
    base10Value (FormatInt x) = x := by
  have hne := formatDigits_ne_nil x.natAbs x.natAbs
  have hall := formatDigits_all_digits (x.natAbs + 1) x.natAbs
  have hval := decVal_formatDigits (x.natAbs + 1) x.natAbs (Nat.lt_succ_self _)
  have hz : noLeadingZero (formatDigits (x.natAbs + 1) x.natAbs []) = true := by
    by_cases h0 : x.natAbs = 0
    · rw [h0]
      decide
    · have := formatDigits_head (x.natAbs + 1) x.natAbs (Nat.lt_succ_self _) h0
      simp [noLeadingZero, this]
  generalize hds : formatDigits (x.natAbs + 1) x.natAbs [] = ds at hne hall hval hz
  by_cases hneg : x < 0
  · have hf : FormatInt x = '-' :: ds := by simp [FormatInt, hneg, hds]
    have htd : tokenDigits ('-' :: ds) = ds := by simp [tokenDigits]
    rw [hf]
    refine ⟨?_, by rw [htd]; exact hz, ?_⟩
    · simp only [isBase10, htd, Bool.and_eq_true, decide_eq_true_eq, List.all_eq_true]
      exact ⟨hne, hall⟩
    · simp only [base10Value, tokenNeg, htd, decide_True, if_true, hval]
      omega
  · have hf : FormatInt x = ds := by simp [FormatInt, hneg, hds]
    rw [hf]
    cases ds with
    | nil => exact absurd rfl hne
    | cons c cs =>
      have hc : isAsciiDigit c = true := hall c (List.mem_cons_self _ _)
      have hsign : ¬ (c = '+' ∨ c = '-') := by
        rintro (e | e) <;> rw [e] at hc <;> exact absurd hc (by decide)
      have hm : c ≠ '-' := fun e => hsign (Or.inr e)
      have htd : tokenDigits (c :: cs) = c :: cs := by simp [tokenDigits, hsign]
      refine ⟨?_, by rw [htd]; exact hz, ?_⟩
      · simp only [isBase10, htd, Bool.and_eq_true, decide_eq_true_eq, List.all_eq_true]
        exact ⟨hne, hall⟩
      · simp only [base10Value, tokenNeg, htd, hm, decide_False, Bool.false_eq_true, if_false,
          hval]
        omega

theorem castToInt64_FormatInt (x : Int) (h : inInt64 x) : castToInt64 (FormatInt x) = x := by
  obtain ⟨hb, hz, hv⟩ := FormatInt_token x
  rw [castToInt64_base10 (FormatInt x) hb hz (by rw [hv]; exact h), hv]

theorem inInt64_of_inInt32 (y : Int) (h : inInt32 y) : inInt64 y := by
  unfold inInt32 at h
  unfold inInt64
  norm_num at h ⊢
  constructor <;> omega

theorem Join_FormatInt_ne_nil (x : Int) (rest : List Int) :
    Join [','] ((x :: rest).map FormatInt) ≠ [] := by
  intro e
  have := congrArg List.head? e
  rw [List.map_cons, Join_head? _ _ _ (FormatInt_shape x).1] at this
  cases hf : FormatInt x with
  | nil => exact (FormatInt_shape x).1 hf
  | cons c cs => rw [hf] at this; simp at this

theorem Split_Join_FormatInt (x : Int) (rest : List Int) :
    Split ',' (Join [','] ((x :: rest).map FormatInt)) = (x :: rest).map FormatInt := by
  apply Split_Join
  · simp
  · intro t ht
    obtain ⟨y, -, rfl⟩ := List.mem_map.1 ht
    exact comma_not_mem_FormatInt y

/-- C19: parsing undoes joining.  For every sequence `xs` of `int64` values (negative values,
the extreme values and the empty sequence included), `CsvToInt64s(Int64sToCsv(xs))` is `xs`;
likewise `CsvToInt32s(Int32sToCsv(ys))` is `ys` for every sequence `ys` of `int32` values. -/
theorem csv_parse_undoes_join (xs ys : List Int) (hx : ∀ x ∈ xs, inInt64 x)
    (hy : ∀ y ∈ ys, inInt32 y) :
    CsvToInt64s (Int64sToCsv xs) = xs ∧ CsvToInt32s (Int32sToCsv ys) = ys ∧
    CsvToInt64s (Int64sToCsv []) = [] ∧
    CsvToInt64s (Int64sToCsv [-9223372036854775808, -1, 0, 9223372036854775807]) =
      [-9223372036854775808, -1, 0, 9223372036854775807] := by
  have h64 : ∀ l : List Int, (∀ x ∈ l, inInt64 x) → CsvToInt64s (Int64sToCsv l) = l := by
    intro l hl
    cases l with
    | nil => rfl
    | cons x rest =>
      have hne := Join_FormatInt_ne_nil x rest
      have hlen : (Join [','] ((x :: rest).map FormatInt)).length ≠ 0 :=
        fun e => hne (List.length_eq_zero.1 e)
      simp only [CsvToInt64s, Int64sToCsv, castToStringSlice, ToInt64s, hlen, if_false,
        Split_Join_FormatInt]
      simp only [List.length_map, List.length_cons, Nat.succ_ne_zero, if_false, List.map_map]
      calc (x :: rest).map (castToInt64 ∘ FormatInt) = (x :: rest).map id :=
            List.map_congr_left (fun y hy => castToInt64_FormatInt y (hl y hy))
        _ = x :: rest := List.map_id _
  refine ⟨h64 xs hx, ?_, rfl, by decide⟩
  rw [CsvToInt32s_eq_wrap]
  have : Int32sToCsv ys = Int64sToCsv ys := rfl
  rw [this, h64 ys (fun y h => inInt64_of_inInt32 y (hy y h))]
  calc ys.map (wrapInt 32) = ys.map id :=
        List.map_congr_left (fun y h => wrapInt_of_inInt32 y (hy y h))
    _ = ys := List.map_id _

/-- The statement of C19 at the extreme values of the two types. -/
theorem csv_parse_undoes_join_witness :
    CsvToInt64s (Int64sToCsv [-9223372036854775808, -1, 0, 10, 9223372036854775807]) =
      [-9223372036854775808, -1, 0, 10, 9223372036854775807] ∧
    CsvToInt32s (Int32sToCsv [-2147483648, -7, 0, 2147483647]) =
      [-2147483648, -7, 0, 2147483647] ∧
    CsvToInt64s (Int64sToCsv []) = [] ∧
    CsvToInt64s (Int64sToCsv [-9223372036854775808, -1, 0, 9223372036854775807]) =
      [-9223372036854775808, -1, 0, 9223372036854775807] :=
  csv_parse_undoes_join [-9223372036854775808, -1, 0, 10, 9223372036854775807]
    [-2147483648, -7, 0, 2147483647] (by decide) (by decide)


/-! ## The shape of `ToSnakeCase` results -/

theorem isASCII_of_alnum {c : Char} (h : isAsciiLetter c = true ∨ isAsciiDigit c = true) :
    isASCII c = true := by
  rcases h with h | h
  · exact isASCII_of_letter h
  · exact isASCII_of_digit h

theorem alnum_ne_underscore {c : Char} (h : isAsciiLetter c = true ∨ isAsciiDigit c = true) :
    c ≠ '_' := by
  intro e
  subst e
  rcases h with h | h <;> exact absurd h (by decide)

theorem alnum_asciiToLower {c : Char} (h : isAsciiLetter c = true ∨ isAsciiDigit c = true) :
    isAsciiLetter (asciiToLower c) = true ∨ isAsciiDigit (asciiToLower c) = true := by
  cases hl : isAsciiLetter c
  · rw [asciiToLower_of_not_letter hl]
    exact h
  · exact Or.inl (ascii_letter_facts c hl).2.1

theorem getLast?_cons_of_some (x a : Char) (l : GoString) (h : l.getLast? = some a) :
    (x :: l).getLast? = some a := by
  cases l with
  | nil => simp at h
  | cons y ys => rw [List.getLast?_cons_cons]; exact h

/-- The loop of `ToSnakeCase` on a string of ASCII letters and digits: the result starts with
the lowered first character, holds letters, digits and underscores only, and every
underscore stands directly between a lower case letter and a letter. -/
theorem snakeLoop_shape (U : UnicodeTables) (r : GoString)
    (hr : ∀ c ∈ r, isAsciiLetter c = true ∨ isAsciiDigit c = true) :
    (snakeLoop U r).head? = r.head?.map asciiToLower ∧
    (∀ c ∈ snakeLoop U r, (isAsciiLetter c = true ∨ isAsciiDigit c = true) ∨ c = '_') ∧
    (∀ pre post : GoString, snakeLoop U r = pre ++ '_' :: post →
      ∃ a b, pre.getLast? = some a ∧ post.head? = some b ∧
        isAsciiLower a = true ∧ isAsciiLetter b = true) := by
  induction r with
  | nil =>
    refine ⟨rfl, by simp [snakeLoop], ?_⟩
    intro pre post h
    simp [snakeLoop] at h
  | cons x tl ih =>
    have hx := hr x (List.mem_cons_self _ _)
    have htl : ∀ c ∈ tl, isAsciiLetter c = true ∨ isAsciiDigit c = true :=
      fun c hc => hr c (List.mem_cons_of_mem _ hc)
    obtain ⟨ih1, ih2, ih3⟩ := ih htl
    have hxa := isASCII_of_alnum hx
    have hlx : ToLower U x = asciiToLower x := by simp [ToLower, hxa]
    have hlxa := alnum_asciiToLower hx
    rw [snakeLoop_cons, hlx]
    refine ⟨rfl, ?_, ?_⟩
    · intro c hc
      rcases List.mem_cons.1 hc with e | e
      · rw [e]; exact Or.inl hlxa
      · split_ifs at e
        · rcases List.mem_cons.1 e with e1 | e1
          · exact Or.inr e1
          · exact ih2 c e1
        · exact ih2 c e
    · intro pre post h
      cases pre with
      | nil =>
        simp only [List.nil_append, List.cons.injEq] at h
        exact absurd h.1 (alnum_ne_underscore hlxa)
      | cons p pre1 =>
        simp only [List.cons_append, List.cons.injEq] at h
        obtain ⟨hp, hrest⟩ := h
        subst hp
        split_ifs at hrest with hcond
        · cases hh : tl.head? with
          | none => simp [hh] at hcond
          | some y =>
            simp only [hh, Option.map_some', Option.some.injEq, Bool.and_eq_true] at hcond
            have hy : isAsciiLetter y = true ∨ isAsciiDigit y = true :=
              htl y (List.mem_of_mem_head? hh)
            have hya := isASCII_of_alnum hy
            have hyu : isAsciiUpper y = true := by simpa [IsUpper, hya] using hcond.1
            have hxl : isAsciiLower x = true := by simpa [IsLower, hxa] using hcond.2
            cases pre1 with
            | nil =>
              simp only [List.nil_append, List.cons.injEq, true_and] at hrest
              refine ⟨asciiToLower x, asciiToLower y, rfl, ?_, ?_, ?_⟩
              · rw [← hrest, ih1, hh]
                rfl
              · rw [asciiToLower_of_lower hxl]; exact hxl
              · exact (ascii_letter_facts y (by simp [isAsciiLetter, hyu])).2.1
            | cons q pre2 =>
              simp only [List.cons_append, List.cons.injEq] at hrest
              obtain ⟨a, b, ha, hb, hla, hlb⟩ := ih3 pre2 post hrest.2
              exact ⟨a, b, getLast?_cons_of_some _ a _ (getLast?_cons_of_some _ a _ ha), hb,
                hla, hlb⟩
        · obtain ⟨a, b, ha, hb, hla, hlb⟩ := ih3 pre1 post hrest
          exact ⟨a, b, getLast?_cons_of_some _ a _ ha, hb, hla, hlb⟩


/-- C20 (as stated, refuted): `ToSnakeCase` of the one-letter string U+01F0 is `j` followed by
the mark U+030C (the title case of U+01F0 is `J` followed by U+030C, and the loop lowers the
`J`): the output holds a code point that is neither a letter, nor a number, nor `_`. -/
theorem snake_case_emits_mark :
    ToSnakeCase caronTables [Char.ofNat 0x1F0] = ['j', Char.ofNat 0x30C] ∧
    rxCameling caronTables (Char.ofNat 0x30C) = false ∧ Char.ofNat 0x30C ≠ '_' ∧
    (¬ ∀ c ∈ ToSnakeCase caronTables [Char.ofNat 0x1F0],
      rxCameling caronTables c = true ∨ c = '_') ∧
    (¬ ∀ (U : UnicodeTables) (s : GoString),
      ∀ c ∈ ToSnakeCase U s, rxCameling U c = true ∨ c = '_') := by
  have h1 : ToSnakeCase caronTables [Char.ofNat 0x1F0] = ['j', Char.ofNat 0x30C] := by decide
  have h2 : rxCameling caronTables (Char.ofNat 0x30C) = false := by decide
  have h3 : Char.ofNat 0x30C ≠ '_' := by decide
  have h4 : ¬ ∀ c ∈ ToSnakeCase caronTables [Char.ofNat 0x1F0],
      rxCameling caronTables c = true ∨ c = '_' := by
    intro h
    rcases h (Char.ofNat 0x30C) (by rw [h1]; simp) with e | e
    · rw [h2] at e
      exact absurd e (by decide)
    · exact h3 e
  exact ⟨h1, h2, h3, h4, fun h => h4 (h caronTables [Char.ofNat 0x1F0])⟩

/-- C20 (amended): for every string `s` whose letters and numbers are ASCII (any other
character is a separator), the output of `ToSnakeCase(s)` consists only of letters, digits
and `_`, never begins with `_`, never ends with `_`, never contains two consecutive `_`, and
every `_` in it stands directly between a lowercase letter and a letter. -/
theorem snake_case_shape (U : UnicodeTables) (s : GoString)
    (hascii : ∀ c ∈ s, rxCameling U c = true → isASCII c = true) :
    (∀ c ∈ ToSnakeCase U s, isAsciiLetter c = true ∨ isAsciiDigit c = true ∨ c = '_') ∧
    (ToSnakeCase U s).head? ≠ some '_' ∧
    (ToSnakeCase U s).getLast? ≠ some '_' ∧
    (∀ pre post : GoString, ToSnakeCase U s ≠ pre ++ '_' :: '_' :: post) ∧
    (∀ pre post : GoString, ToSnakeCase U s = pre ++ '_' :: post →
      ∃ a b, pre.getLast? = some a ∧ post.head? = some b ∧
        isAsciiLower a = true ∧ isAsciiLetter b = true) := by
  have hr : ∀ c ∈ ToCamelCase U s, isAsciiLetter c = true ∨ isAsciiDigit c = true := by
    intro c hc
    obtain ⟨ha, hp⟩ := ToCamelCase_ascii_chars U s hascii c hc
    rw [rxCameling_ascii U ha] at hp
    simpa using hp
  obtain ⟨h1, h2, h3⟩ := snakeLoop_shape U (ToCamelCase U s) hr
  unfold ToSnakeCase
  refine ⟨?_, ?_, ?_, ?_, h3⟩
  · intro c hc
    rcases h2 c hc with (h | h) | h
    · exact Or.inl h
    · exact Or.inr (Or.inl h)
    · exact Or.inr (Or.inr h)
  · rw [h1]
    intro e
    cases hh : (ToCamelCase U s).head? with
    | none => rw [hh] at e; simp at e
    | some c =>
      rw [hh] at e
      simp only [Option.map_some', Option.some.injEq] at e
      exact alnum_ne_underscore (alnum_asciiToLower (hr c (List.mem_of_mem_head? hh))) e
  · intro e
    obtain ⟨ys, hys⟩ := List.getLast?_eq_some_iff.1 e
    obtain ⟨a, b, -, hb, -, -⟩ := h3 ys [] hys
    simp at hb
  · intro pre post e
    obtain ⟨a, b, -, hb, -, hlb⟩ := h3 pre ('_' :: post) e
    simp only [List.head?_cons, Option.some.injEq] at hb
    rw [← hb] at hlb
    exact absurd hlb (by decide)

/-- The statement of C20 (amended) at the input `"hello_world-42 xY"`, with tables that classify no
code point outside ASCII; there `ToSnakeCase` gives `"hello_world42xy"`. -/
theorem snake_case_shape_witness :
    ((∀ c ∈ ToSnakeCase asciiOnly "hello_world-42 xY".toList,
        isAsciiLetter c = true ∨ isAsciiDigit c = true ∨ c = '_') ∧
      (ToSnakeCase asciiOnly "hello_world-42 xY".toList).head? ≠ some '_' ∧
      (ToSnakeCase asciiOnly "hello_world-42 xY".toList).getLast? ≠ some '_' ∧
      (∀ pre post : GoString,
        ToSnakeCase asciiOnly "hello_world-42 xY".toList ≠ pre ++ '_' :: '_' :: post) ∧
      (∀ pre post : GoString, ToSnakeCase asciiOnly "hello_world-42 xY".toList = pre ++ '_' :: post →
        ∃ a b, pre.getLast? = some a ∧ post.head? = some b ∧
          isAsciiLower a = true ∧ isAsciiLetter b = true)) ∧
    ToSnakeCase asciiOnly "hello_world-42 xY".toList = "hello_world42xy".toList :=
  ⟨snake_case_shape asciiOnly "hello_world-42 xY".toList (by decide), by decide⟩

end Minutils
